import Mathlib

/-!
Verification of the hadith search engine (`final_optimized_search.py`).

The development shallowly embeds the search module's data model and
operations as Lean functions over `List Char` strings and association
lists, and proves (or refutes) the specification's claims about them.

Conventions of the embedding:
* Python strings are `List Char` (or `String` for opaque payloads); the
  model is faithful on ASCII text, which is the domain the tokenizer
  restricts to (`[a-z]+` with `\b` boundaries) and the only domain the
  claims exercise.
* Python dicts that are iterated (corpus, accumulators) are association
  lists in insertion order; dict lookup is first-match lookup.
* `float` scores are modelled by the reals for the BM25 formula, and the
  search pipeline is parametrised by the score type so that structural
  properties are provable and executable instances exist.
-/

set_option autoImplicit false

/-- `\w` of Python's `re` on the ASCII plane: letter, digit or underscore.
(`_tokenize` matches `\b[a-z]+\b`; `\b` separates `\w` from non-`\w`.) -/
def isWordChar (c : Char) : Bool :=
  c.isAlpha || c.isDigit || c == '_'

/-- ASCII letter (either case), the characters `[a-z]` can match after
lowercasing. -/
def isAsciiLetter (c : Char) : Bool :=
  c.isLower || c.isUpper

/-- The scanner behind `re.findall(r'\b[a-z]+\b', text)`:
walk the text keeping the current run of lowercase letters (reversed in
`runRev`) together with `runOk`, whether the run started at a word
boundary; a run is emitted exactly when it also ends at a word boundary.
`prevNonWord` says whether the previous character was a non-word
character (start of text counts as one). -/
def scanAux (prevNonWord : Bool) (runRev : List Char) (runOk : Bool) :
    List Char → List (List Char)
  | [] => if runRev.isEmpty then [] else if runOk then [runRev.reverse] else []
  | c :: rest =>
    if c.isLower then
      if runRev.isEmpty then
        scanAux false [c] prevNonWord rest
      else
        scanAux false (c :: runRev) runOk rest
    else
      (if !runRev.isEmpty && runOk && !isWordChar c then [runRev.reverse] else []) ++
        scanAux (!isWordChar c) [] false rest

/-- `FinalOptimizedHadithSearch._tokenize`: lowercase, then
`re.findall(r'\b[a-z]+\b', text)`. -/
def tokenize (s : List Char) : List (List Char) :=
  scanAux true [] false (s.map Char.toLower)

/-- Stable insertion of `x` (earlier in the original list than everything
already sorted) into a descending-by-`key` sorted list. -/
def insertDescBy {α β : Type} [LinearOrder α] (key : β → α) (x : β) :
    List β → List β
  | [] => [x]
  | y :: ys => if key x < key y then y :: insertDescBy key x ys else x :: y :: ys

/-- Python's `sorted(l, key=key, reverse=True)`: stable descending sort. -/
def sortDescBy {α β : Type} [LinearOrder α] (key : β → α) : List β → List β
  | [] => []
  | x :: xs => insertDescBy key x (sortDescBy key xs)

/-- Stable insertion for the ascending sort. -/
def insertAscBy {α β : Type} [LinearOrder α] (key : β → α) (x : β) :
    List β → List β
  | [] => [x]
  | y :: ys => if key y < key x then y :: insertAscBy key x ys else x :: y :: ys

/-- Python's `l.sort(key=key)` / `sorted(l, key=key)`: stable ascending sort. -/
def sortAscBy {α β : Type} [LinearOrder α] (key : β → α) : List β → List β
  | [] => []
  | x :: xs => insertAscBy key x (sortAscBy key xs)

/-- First-match lookup in an association list: Python `dict` access on a
duplicate-free key list. -/
def lookupA {κ β : Type} [DecidableEq κ] : List (κ × β) → κ → Option β
  | [], _ => none
  | (k, v) :: rest, k' => if k = k' then some v else lookupA rest k'

/-- A JSON scalar as the corpus stores reference and hadith numbers:
"string or integer". -/
inductive JVal where
  | s (v : String)
  | n (v : Int)
deriving DecidableEq, Repr

/-- Python `str()` of such a scalar. -/
def JVal.toStr : JVal → String
  | .s v => v
  | .n v => toString v

/-- Python `str()` of a value that may be `None` (a missing dict key read
with `.get`). -/
def strOfRef : Option JVal → String
  | none => "None"
  | some v => v.toStr

/-- A stored hadith: the fields `_build_inverted_index` and the
materialization steps read (missing keys are read with `.get` defaults,
so fields are total, with `None`-able ones optional). -/
structure Hadith where
  hadithNumber : Option JVal
  englishNarrated : String
  englishText : List Char
  arabicText : String
  bookReference : Option JVal
  searchableText : List Char
deriving DecidableEq, Repr

instance : Inhabited Hadith := ⟨⟨none, "", [], "", none, []⟩⟩

/-- A book inside the nested search-index document. The book's JSON key is
its (numeric) book number, modelled as `Nat`. -/
structure BookData where
  bookName : String
  hadiths : List Hadith
deriving DecidableEq, Repr

/-- A collection inside the nested search-index document, its books in
dict insertion order. -/
structure CollectionData where
  books : List (Nat × BookData)
deriving DecidableEq, Repr

/-- The `collections` mapping of `search-index.json`, in dict insertion
order. -/
abbrev SearchIndex := List (String × CollectionData)

/-- The collections manifest: collection id → display name
(`self.collections[cid]['name']`). -/
abbrev Manifest := List (String × String)

/-- Per-document metadata row built by `_build_inverted_index`. -/
structure DocMeta where
  collection_id : String
  book_id : Nat
  hadith_idx : Nat
  doc_length : Nat
deriving DecidableEq, Repr

/-- The distinct elements of a list in first-occurrence order:
`collections.Counter`'s key iteration order. -/
def firstOccs : List (List Char) → List (List Char)
  | [] => []
  | w :: ws => w :: (firstOccs ws).filter (fun v => v ≠ w)

/-- `collections.Counter(words)` as an association list in key insertion
order. -/
def counterOf (words : List (List Char)) : List (List Char × Nat) :=
  (firstOccs words).map (fun w => (w, words.count w))

/-- `inverted_index[word].append((doc_id, count))` on a `defaultdict(list)`
kept as an association list in key insertion order. -/
def addPosting (idx : List (List Char × List (Nat × Nat))) (w : List Char)
    (p : Nat × Nat) : List (List Char × List (Nat × Nat)) :=
  match idx with
  | [] => [(w, [p])]
  | (w', ps) :: rest =>
    if w' = w then (w', ps ++ [p]) :: rest else (w', ps) :: addPosting rest w p

/-- The loop state of `_build_inverted_index`: the inverted index, the
doc-metadata table and the running `doc_id` counter. -/
structure BuildState where
  inverted_index : List (List Char × List (Nat × Nat))
  doc_metadata : List (Nat × DocMeta)
  next_id : Nat
deriving Repr

/-- The body of `_build_inverted_index`'s innermost loop: tokenize the
hadith's `searchableText`, record its metadata, append one posting per
distinct word, and advance `doc_id`. -/
def buildDoc (cid : String) (bid : Nat) (hidx : Nat) (h : Hadith)
    (st : BuildState) : BuildState :=
  let words := tokenize h.searchableText
  let meta : DocMeta := ⟨cid, bid, hidx, words.length⟩
  { inverted_index :=
      (counterOf words).foldl
        (fun ix wc => addPosting ix wc.1 (st.next_id, wc.2)) st.inverted_index,
    doc_metadata := st.doc_metadata ++ [(st.next_id, meta)],
    next_id := st.next_id + 1 }

/-- The nested `for collection / for book / for hadith` traversal order of
`_build_inverted_index`, flattened. -/
def docsOf (si : SearchIndex) : List (String × Nat × Nat × Hadith) :=
  si.flatMap (fun c =>
    c.2.books.flatMap (fun b =>
      b.2.hadiths.enum.map (fun ih => (c.1, b.1, ih.1, ih.2))))

/-- `_build_inverted_index`: fold the traversal over the empty state. -/
def build_inverted_index (si : SearchIndex) : BuildState :=
  (docsOf si).foldl (fun st d => buildDoc d.1 d.2.1 d.2.2.1 d.2.2.2 st)
    ⟨[], [], 0⟩

/-- `_calculate_doc_stats`, kept as the two integer totals. -/
structure DocStats where
  total_docs : Nat
  total_length : Nat
deriving DecidableEq, Repr

/-- `_calculate_doc_stats` over the built metadata table. -/
def calculate_doc_stats (meta : List (Nat × DocMeta)) : DocStats :=
  ⟨meta.length, (meta.map (fun p => p.2.doc_length)).sum⟩

/-- `avg_doc_length = total_length / total_docs if total_docs > 0 else 0`,
as a real number. -/
noncomputable def avg_doc_length (st : DocStats) : ℝ :=
  if 0 < st.total_docs then (st.total_length : ℝ) / st.total_docs else 0

/-- The `idf` line of `_bm25_score`:
`math.log((N - df + 0.5) / (df + 0.5) + 1)`. -/
noncomputable def bm25_idf (N df : Nat) : ℝ :=
  Real.log (((N : ℝ) - (df : ℝ) + 0.5) / ((df : ℝ) + 0.5) + 1)

/-- `_bm25_score(term_freq, doc_length, num_docs_with_term)` with
`k1 = 1.2`, `b = 0.75`, float arithmetic modelled over ℝ. -/
noncomputable def bm25_score (N : Nat) (avg_dl : ℝ)
    (term_freq doc_length df : Nat) : ℝ :=
  let k1 : ℝ := 1.2
  let b : ℝ := 0.75
  let tf_component := ((term_freq : ℝ) * (k1 + 1)) /
    ((term_freq : ℝ) + k1 * (1 - b + b * (doc_length : ℝ) / avg_dl))
  bm25_idf N df * tf_component

/-- The initialized engine: the loaded corpus, manifest, built index and
metadata, and the per-term scorer (`_bm25_score` with the corpus
statistics baked in; kept as a parameter so the pipeline is polymorphic
in the score type). -/
structure Core (α : Type) where
  search_index : SearchIndex
  collections : Manifest
  inverted_index : List (List Char × List (Nat × Nat))
  doc_metadata : List (Nat × DocMeta)
  scoreOf : Nat → Nat → Nat → α

/-- `self.doc_metadata[doc_id]['doc_length']`. -/
def doc_length_of {α : Type} (core : Core α) (d : Nat) : Nat :=
  ((lookupA core.doc_metadata d).map (fun m => m.doc_length)).getD 0

/-- `doc_scores[doc_id] += score` on a `defaultdict(float)` kept as an
association list in key insertion order. -/
def addScore {α : Type} [Add α] : List (Nat × α) → Nat → α → List (Nat × α)
  | [], d, s => [(d, s)]
  | (d', s') :: rest, d, s =>
    if d' = d then (d', s' + s) :: rest else (d', s') :: addScore rest d s

/-- The slice of a word's posting list that `search_hadith` actually
scores: the whole list when `df < 100`, otherwise the first
`min(1000, df)` postings. -/
def effectivePostings (ps : List (Nat × Nat)) : List (Nat × Nat) :=
  if ps.length < 100 then ps else ps.take (min 1000 ps.length)

/-- One iteration of `search_hadith`'s `for word in query_words` loop:
skip absent words, otherwise score the effective postings into the
accumulator. -/
def scoreWord {α : Type} [Add α] (core : Core α) (ds : List (Nat × α))
    (w : List Char) : List (Nat × α) :=
  match lookupA core.inverted_index w with
  | none => ds
  | some ps =>
    (effectivePostings ps).foldl
      (fun ds p => addScore ds p.1 (core.scoreOf p.2 (doc_length_of core p.1) ps.length))
      ds

/-- Phase 1 of `search_hadith`: accumulate `doc_scores` over the query
words. -/
def accumScores {α : Type} [Add α] (core : Core α)
    (query_words : List (List Char)) : List (Nat × α) :=
  query_words.foldl (scoreWord core) []

/-- The candidate-selection step of `search_hadith`: the early-termination
branch (`heapq.nlargest`, modelled by its documented equivalent
`sorted(..., reverse=True)[:n]`), then
`sorted(doc_scores.items(), key=score, reverse=True)[:limit]`.
Faithful for `1 ≤ limit` (at `limit = 0` with a non-empty accumulator the
source raises `IndexError` on `top_docs[limit-1]`). -/
def selectTop {α : Type} [LinearOrder α] [OfNat α 2] (limit : Nat)
    (ds : List (Nat × α)) : List (Nat × α) :=
  let ds2 :=
    if limit * 3 < ds.length then
      let top := (sortDescBy (fun p => p.2) ds).take (limit * 2)
      if limit ≤ top.length then
        match top.get? (limit - 1) with
        | some p => if (2 : α) < p.2 then top.take limit else ds
        | none => ds
      else ds
    else ds
  (sortDescBy (fun p => p.2) ds2).take limit

/-- A highlight span `{'start': ..., 'end': ..., 'text': ...}` attached by
`search_hadith_advanced` (the source's `end` key is `stop` here, `end`
being reserved). -/
structure Span where
  start : Nat
  stop : Nat
  text : List Char
deriving DecidableEq, Repr

/-- A materialized search result (`result = {...}` in `search_hadith`).
The advanced variant later fills `highlights`; a fresh basic result has
none. -/
structure Rec (α : Type) where
  collection_id : String
  collection : String
  hadith_no : Option JVal
  book_no : Nat
  book_en : String
  narrator_en : String
  body_en : List Char
  body_ar : String
  book_ref_no : Option JVal
  score : α
  highlights : Option (List Span)

/-- Phase 2 of `search_hadith`: materialize one `(doc_id, score)` pair
from the metadata table and the loaded corpus. -/
def materializeOne {α : Type} (core : Core α) (p : Nat × α) : Rec α :=
  let m := (lookupA core.doc_metadata p.1).getD ⟨"", 0, 0, 0⟩
  let cd := (lookupA core.search_index m.collection_id).getD ⟨[]⟩
  let bd := (lookupA cd.books m.book_id).getD ⟨"", []⟩
  let h := (bd.hadiths.get? m.hadith_idx).getD default
  { collection_id := m.collection_id,
    collection := (lookupA core.collections m.collection_id).getD m.collection_id,
    hadith_no := h.hadithNumber,
    book_no := m.book_id,
    book_en := bd.bookName,
    narrator_en := h.englishNarrated,
    body_en := h.englishText,
    body_ar := h.arabicText,
    book_ref_no := h.bookReference,
    score := p.2,
    highlights := none }

/-- The pure body of `search_hadith(query, limit)` on an initialized
engine: empty-query guard, tokenization, scoring, selection,
materialization.  (`normalized_query` is computed by the source and never
used; see `normalize_query`.) -/
def search_hadith_core {α : Type} [LinearOrder α] [OfNat α 2] [Add α]
    (core : Core α) (query : String) (limit : Nat) : List (Rec α) :=
  if query = "" then []
  else
    let query_words := tokenize query.data
    if query_words = [] then []
    else (selectTop limit (accumScores core query_words)).map (materializeOne core)

/-- `_normalize_query`: `' '.join(sorted(set(self._tokenize(query))))`. -/
def normalize_query (query : String) : String :=
  String.intercalate " "
    (sortAscBy (fun s => s)
      ((firstOccs (tokenize query.data)).map (fun w => String.mk w)))

/-- Assemble an initialized engine from a loaded corpus with an arbitrary
scorer. -/
def mkCoreWith {α : Type} (scoreOf : Nat → Nat → Nat → α) (manifest : Manifest)
    (si : SearchIndex) : Core α :=
  let bs := build_inverted_index si
  { search_index := si, collections := manifest,
    inverted_index := bs.inverted_index, doc_metadata := bs.doc_metadata,
    scoreOf := scoreOf }

/-- The engine as the source runs it: `_bm25_score` with the built corpus
statistics. -/
noncomputable def mkRealCore (manifest : Manifest) (si : SearchIndex) : Core ℝ :=
  let bs := build_inverted_index si
  let stats := calculate_doc_stats bs.doc_metadata
  mkCoreWith (fun tf dl df => bm25_score stats.total_docs (avg_doc_length stats) tf dl df)
    manifest si

/-- `text[a:b]` for `a ≤ b` (Python slicing clamps at the ends, as
`drop`/`take` do). -/
def sliceL (l : List Char) (a b : Nat) : List Char :=
  (l.drop a).take (b - a)

/-- Helper for `str.find`: first index `≥ i` (indices counted absolutely)
at which `w` occurs in the remaining text. -/
def findAux (w : List Char) : List Char → Nat → Option Nat
  | [], i => if w.isEmpty then some i else none
  | c :: rest, i =>
    if w.isPrefixOf (c :: rest) then some i else findAux w rest (i + 1)

/-- `text.find(word, start)` (`none` for Python's `-1`). -/
def findFrom (l w : List Char) (start : Nat) : Option Nat :=
  findAux w (l.drop start) start

/-- The `while word_start > 0 and text_lower[word_start-1].isalpha()`
loop of `search_hadith_advanced`: grow the span start leftwards over
letters. -/
def extendLeft (tl : List Char) : Nat → Nat
  | 0 => 0
  | i + 1 => if (tl.getD i ' ').isAlpha then extendLeft tl i else i + 1

/-- The bounded rightward walk behind `extendRight`, with explicit fuel
(`tl.length - i` suffices). -/
def extendRightAux (tl : List Char) : Nat → Nat → Nat
  | 0, i => i
  | fuel + 1, i =>
    if i < tl.length then
      if (tl.getD i ' ').isAlpha then extendRightAux tl fuel (i + 1) else i
    else i

/-- The `while word_end < len(text_lower) and text_lower[word_end].isalpha()`
loop: grow the span end rightwards over letters. -/
def extendRight (tl : List Char) (i : Nat) : Nat :=
  extendRightAux tl (tl.length - i) i

/-- The `while count < 3` occurrence loop of `search_hadith_advanced`:
collect up to `fuel` occurrences of `w` in `tl` starting the next search
at `pos + 1`, each extended to word boundaries. -/
def collectOccs (tl w : List Char) : Nat → Nat → List (Nat × Nat)
  | 0, _ => []
  | fuel + 1, start =>
    match findFrom tl w start with
    | none => []
    | some pos =>
      (extendLeft tl pos, extendRight tl (pos + w.length)) ::
        collectOccs tl w fuel (pos + 1)

/-- The raw (pre-sort, pre-merge) highlight spans the advanced search
collects for the given word list: for each word, up to 3 case-insensitive
occurrences, extended to word boundaries, with `text` sliced from the
original body. -/
def rawHighlights (text : List Char) (words : List (List Char)) : List Span :=
  let tl := text.map Char.toLower
  words.flatMap (fun w =>
    (collectOccs tl w 3 0).map (fun se => ⟨se.1, se.2, sliceL text se.1 se.2⟩))

/-- The overlap-merging walk of `search_hadith_advanced`, carrying the
currently growing span: `if h['start'] <= merged[-1]['end']` extend it
(recomputing its text), else emit it and continue from `h`. -/
def mergeSpansAux (text : List Char) (cur : Span) : List Span → List Span
  | [] => [cur]
  | h :: rest =>
    if h.start ≤ cur.stop then
      mergeSpansAux text
        ⟨cur.start, max cur.stop h.stop, sliceL text cur.start (max cur.stop h.stop)⟩ rest
    else cur :: mergeSpansAux text h rest

/-- `merged`: fold the overlap merge over the sorted span list. -/
def mergeSpans (text : List Char) : List Span → List Span
  | [] => []
  | h :: t => mergeSpansAux text h t

/-- The whole highlighting pass of `search_hadith_advanced` for one
result body: first 5 query words (as the source takes them), up to 3
occurrences each, sort by start, merge overlaps, keep 10. -/
def computeHighlights (text : List Char) (query_words : List (List Char)) :
    List Span :=
  (mergeSpans text (sortAscBy Span.start (rawHighlights text (query_words.take 5)))).take 10

/-- Modelled from the spec (§4.7 step 1), for comparison with the source:
the spec says to take the first 5 DISTINCT-order tokens as
`highlight_words`. -/
def highlight_words_spec (query_words : List (List Char)) : List (List Char) :=
  (firstOccs query_words).take 5

/-- Modelled from the spec: the highlighting pass as §4.7 words it, with
distinct-order highlight words; identical to `computeHighlights`
otherwise. -/
def computeHighlightsSpec (text : List Char) (query_words : List (List Char)) :
    List Span :=
  (mergeSpans text (sortAscBy Span.start (rawHighlights text (highlight_words_spec query_words)))).take 10

/-- `result['highlights'] = merged[:10]` applied to one materialized
result: the in-place dict mutation `search_hadith_advanced` performs. -/
def highlightRec {α : Type} (query : String) (r : Rec α) : Rec α :=
  { r with highlights := some (computeHighlights r.body_en (tokenize query.data)) }

/-- `get_hadith_by_reference`'s result record: assembled like a search
result but with no `score` (and no `highlights`) key. -/
structure RefRec where
  collection_id : String
  collection : String
  hadith_no : Option JVal
  book_no : Nat
  book_en : String
  narrator_en : String
  body_en : List Char
  body_ar : String
  book_ref_no : Option JVal
deriving DecidableEq, Repr

/-- `get_hadith_by_reference(collection_id, book_no, ref_no)`: walk the
named book's hadith list and return the first hadith whose stringified
`bookReference` equals the stringified `ref_no`. -/
def get_hadith_by_reference (si : SearchIndex) (manifest : Manifest)
    (collection_id : String) (book_no : Nat) (ref_no : JVal) : Option RefRec :=
  let cd := (lookupA si collection_id).getD ⟨[]⟩
  let bd := (lookupA cd.books book_no).getD ⟨"", []⟩
  match bd.hadiths.find? (fun h => strOfRef h.bookReference == ref_no.toStr) with
  | none => none
  | some h =>
    some { collection_id := collection_id,
           collection := (lookupA manifest collection_id).getD collection_id,
           hadith_no := h.hadithNumber,
           book_no := book_no,
           book_en := bd.bookName,
           narrator_en := h.englishNarrated,
           body_en := h.englishText,
           body_ar := h.arabicText,
           book_ref_no := h.bookReference }

/-- The default (all-empty) result record, the value `getD` reads at a
dangling store index. -/
def defaultRec {α : Type} [Inhabited α] : Rec α :=
  ⟨"", "", none, 0, "", "", [], "", none, default, none⟩

instance {α : Type} [Inhabited α] : Inhabited (Rec α) := ⟨defaultRec⟩

/-- The mutable state around the pure engine: the heap of result dicts
(`store`, addressed by position, since the two `lru_cache`s alias the
same dict objects) and the two memoization tables, keyed — as
`functools.lru_cache` keys them — by the RAW `(query, limit)` arguments.
Eviction (capacity 2048) is not modelled. -/
structure SState (α : Type) where
  core : Core α
  store : List (Rec α)
  basicCache : List ((String × Nat) × List Nat)
  advCache : List ((String × Nat) × List Nat)

/-- Read result records out of the store, as a caller dereferencing the
returned list of dicts does. -/
def readRecs {α : Type} [Inhabited α] (store : List (Rec α)) (ids : List Nat) :
    List (Rec α) :=
  ids.map (fun i => store.getD i default)

/-- `search_hadith` as called through its `lru_cache`: on a hit return
the cached list (the same objects); on a miss run the body, put the
fresh records in the store and memoize the list under the raw
`(query, limit)` key. -/
def search_hadith {α : Type} [LinearOrder α] [OfNat α 2] [Add α] [Inhabited α]
    (st : SState α) (query : String) (limit : Nat) : SState α × List Nat :=
  match lookupA st.basicCache (query, limit) with
  | some ids => (st, ids)
  | none =>
    let recs := search_hadith_core st.core query limit
    let ids := List.range' st.store.length recs.length
    ({ st with store := st.store ++ recs,
               basicCache := ((query, limit), ids) :: st.basicCache }, ids)

/-- `search_hadith_advanced` as called through its own `lru_cache`: on a
miss, short-circuit the empty query, otherwise call `search_hadith`
(through ITS cache), then mutate each returned record in place, adding
`highlights` — the same dict objects the basic cache holds. -/
def search_hadith_advanced {α : Type} [LinearOrder α] [OfNat α 2] [Add α]
    [Inhabited α] (st : SState α) (query : String) (limit : Nat) :
    SState α × List Nat :=
  match lookupA st.advCache (query, limit) with
  | some ids => (st, ids)
  | none =>
    if query = "" then
      ({ st with advCache := ((query, limit), []) :: st.advCache }, [])
    else
      let res := search_hadith st query limit
      let st1 := res.1
      let ids := res.2
      let store2 := ids.foldl
        (fun s i => s.set i (highlightRec query (s.getD i default))) st1.store
      ({ st1 with store := store2,
                  advCache := ((query, limit), ids) :: st1.advCache }, ids)

/-- Reachable-state invariant of the two caches: cached ids are in the
store, and an advanced entry is either the empty-query shortcut or backed
by the basic entry it aliased and mutated (whose records therefore carry
highlights). -/
def WFState {α : Type} [Inhabited α] (st : SState α) : Prop :=
  (∀ k ids, lookupA st.basicCache k = some ids → ∀ i ∈ ids, i < st.store.length) ∧
  (∀ q l ids, lookupA st.advCache (q, l) = some ids →
    (q = "" ∧ ids = []) ∨
    (lookupA st.basicCache (q, l) = some ids ∧
      ∀ i ∈ ids, ((st.store.getD i default).highlights).isSome = true)) ∧
  (∀ l ids, lookupA st.basicCache ("", l) = some ids → ids = [])

/-- The total contribution of one occurrence of query word `w` to
document `d`'s accumulated score in `search_hadith`: zero when the word
is absent from the index or `d` is not among the word's EFFECTIVE
postings (`effectivePostings`), and `scoreOf tf doc_length df` otherwise. -/
def wordContribution {α : Type} [Zero α] (core : Core α) (d : Nat)
    (w : List Char) : α :=
  match lookupA core.inverted_index w with
  | none => 0
  | some ps =>
    match (effectivePostings ps).find? (fun p => p.1 == d) with
    | some p => core.scoreOf p.2 (doc_length_of core d) ps.length
    | none => 0

/-- A one-hadith fixture corpus for concrete evaluations. -/
def hadith1 : Hadith :=
  ⟨some (.n 1), "Narrator", "The prophet said X".data, "ar", some (.n 7),
    "the prophet said x".data⟩

/-- The fixture search index holding `hadith1` in book 1 of collection
`"c1"`. -/
def corpus1 : SearchIndex := [("c1", ⟨[(1, ⟨"Book One", [hadith1]⟩)]⟩)]

/-- The fixture collections manifest. -/
def manifest1 : Manifest := [("c1", "Collection One")]

/-- The fixture engine over `corpus1` with the unit scorer (scores are
the term frequencies), used where only the pipeline's structure — not
BM25 values — matters. -/
def coreNat : Core Nat := mkCoreWith (fun tf _ _ => tf) manifest1 corpus1

/-- The fixture engine state over `coreNat` with empty store and caches. -/
def stNat : SState Nat := ⟨coreNat, [], [], []⟩

/-- A fixture hadith whose searchable text is the single word
`"mercy"`. -/
def hadithMercy : Hadith :=
  ⟨some (.n 2), "N2", "Mercy indeed".data, "ar2", some (.n 9), "mercy".data⟩

/-- The one-document fixture corpus around `hadithMercy`. -/
def corpusMercy : SearchIndex := [("c1", ⟨[(1, ⟨"Book One", [hadithMercy]⟩)]⟩)]

/-- The engine the source runs (BM25 over ℝ) on `corpusMercy`. -/
noncomputable def coreMercy : Core ℝ := mkRealCore manifest1 corpusMercy

/-- Fixture: doc-id 0, searchable text `"beta"`, English body `"B"`. -/
def hadithBeta : Hadith := ⟨some (.n 1), "", "B".data, "", some (.n 1), "beta".data⟩

/-- Fixture: doc-id 1, searchable text `"alpha"`, English body `"A"`. -/
def hadithAlpha : Hadith := ⟨some (.n 2), "", "A".data, "", some (.n 2), "alpha".data⟩

/-- A two-document fixture corpus in which the query `"alpha beta"`
produces an exact score tie between doc 1 (matching `"alpha"`) and doc 0
(matching `"beta"`). -/
def corpusTie : SearchIndex := [("c1", ⟨[(1, ⟨"B1", [hadithBeta, hadithAlpha]⟩)]⟩)]

/-- The engine the source runs (BM25 over ℝ) on `corpusTie`. -/
noncomputable def coreTie : Core ℝ := mkRealCore manifest1 corpusTie

/-- The engine state over `coreMercy` with empty store and caches. -/
noncomputable def stMercy : SState ℝ := ⟨coreMercy, [], [], []⟩

/-- Fixture: a hadith whose book reference is the STRING `"7"`. -/
def hadithRefS : Hadith := ⟨some (.n 1), "", "first".data, "", some (.s "7"), "x".data⟩

/-- Fixture: a hadith whose book reference is the INTEGER `7`. -/
def hadithRefN : Hadith := ⟨some (.n 2), "", "second".data, "", some (.n 7), "y".data⟩

/-- A fixture corpus whose one book holds two hadiths with DISTINCT
reference values that stringify alike (`"7"` vs `7`). -/
def corpusRef : SearchIndex := [("c1", ⟨[(1, ⟨"B", [hadithRefS, hadithRefN]⟩)]⟩)]

theorem toLower_eq_self_of_not_upper (c : Char) (h : c.isUpper = false) :
    c.toLower = c := by
  unfold Char.toLower
  rw [if_neg]
  rintro ⟨h1, h2⟩
  rw [Char.isUpper] at h
  simp only [Bool.and_eq_false_iff, decide_eq_false_iff_not, not_le] at h
  have hv1 : (65:UInt32) ≤ c.val := by
    rw [UInt32.le_def, BitVec.le_def]; exact h1
  have hv2 : c.val ≤ (90:UInt32) := by
    rw [UInt32.le_def, BitVec.le_def]; exact h2
  rcases h with h | h
  · exact absurd hv1 (by simpa using h)
  · exact absurd hv2 (by simpa using h)

theorem isUpper_eq_false_of_isLower (c : Char) (h : c.isLower = true) :
    c.isUpper = false := by
  rw [Char.isLower] at h
  rw [Char.isUpper]
  simp only [Bool.and_eq_true, decide_eq_true_eq] at h
  simp only [Bool.and_eq_false_iff, decide_eq_false_iff_not, not_le]
  right
  have h97 : (97:UInt32) ≤ c.val := h.1
  rw [UInt32.le_def, BitVec.le_def] at h97 ⊢
  have e97 : ((97:UInt32)).toBitVec.toNat = 97 := rfl
  have e90 : ((90:UInt32)).toBitVec.toNat = 90 := rfl
  rw [e97] at h97
  rw [e90]
  omega

theorem isWordChar_parts {c : Char} (h : isWordChar c = false) :
    c.isAlpha = false ∧ c.isLower = false ∧ c.isUpper = false := by
  rw [isWordChar] at h
  simp only [Bool.or_eq_false_iff] at h
  have ha := h.1.1
  rw [Char.isAlpha] at ha
  simp only [Bool.or_eq_false_iff] at ha
  exact ⟨h.1.1, ha.2, ha.1⟩

theorem scanAux_append_sep (c : Char) (ys : List Char)
    (hw : isWordChar c = false) (hl : c.isLower = false) :
    ∀ (xs : List Char) (p ok : Bool) (run : List Char),
    scanAux p run ok (xs ++ c :: ys) =
      scanAux p run ok xs ++ scanAux true [] false ys := by
  intro xs
  induction xs with
  | nil =>
    intro p ok run
    simp only [List.nil_append, scanAux, hl, hw]
    cases run with
    | nil => simp [scanAux]
    | cons a as => cases ok <;> simp [scanAux]
  | cons x xs ih =>
    intro p ok run
    simp only [List.cons_append, scanAux]
    by_cases hx : x.isLower
    · simp only [hx, if_true]
      cases run with
      | nil => simp only [List.isEmpty_nil, if_true]; exact ih _ _ _
      | cons a as => simp only [List.isEmpty_cons, if_false]; exact ih _ _ _
    · simp only [hx, if_false, Bool.false_eq_true, List.append_eq]
      rw [ih _ _ _, List.append_assoc]

theorem scanAux_all_lower :
    ∀ (rest : List Char) (run : List Char) (p : Bool), run ≠ [] →
      (∀ x ∈ rest, x.isLower = true) →
      scanAux p run true rest = [run.reverse ++ rest] := by
  intro rest
  induction rest with
  | nil =>
    intro run p hr _
    have hrun : run.isEmpty = false := by
      cases run
      · exact absurd rfl hr
      · rfl
    simp [scanAux, hrun]
  | cons c r ih =>
    intro run p hr hall
    have hc : c.isLower = true := hall c (List.mem_cons_self _ _)
    have hrun : run.isEmpty = false := by
      cases run
      · exact absurd rfl hr
      · rfl
    simp only [scanAux, hc, if_true, hrun, Bool.false_eq_true, if_false]
    rw [ih (c :: run) false (by simp) (fun y hy => hall y (List.mem_cons_of_mem _ hy))]
    simp

/-- C1 counterexample: a digit is not a separator for `_tokenize` — the
`\b` boundaries of `re.findall(r'\b[a-z]+\b', ...)` suppress letter runs
adjacent to word characters, so `tokenize "a1b" = []` while the claim
demands `tokenize "a" ++ tokenize "b" = [[a],[b]]`. -/
theorem tokenize_digit_blocks_separator_cex :
    tokenize ('a' :: '1' :: 'b' :: []) ≠ tokenize ['a'] ++ tokenize ['b'] ∧
    isAsciiLetter '1' = false ∧
    tokenize ('a' :: '1' :: 'b' :: []) = [] ∧
    tokenize ['a'] ++ tokenize ['b'] = [['a'], ['b']] := by decide

/-- C1 amended: splitting at a NON-WORD character (not a letter, digit or
underscore; ASCII) is respected by `tokenize` — for any `xs`, `ys`,
`tokenize (xs ++ c :: ys) = tokenize xs ++ tokenize ys`; the empty string
tokenizes to the empty list; and a nonempty pure-lowercase-letter string
is its own sole token. -/
theorem tokenize_separator_amended (xs ys : List Char) (c : Char)
    (hw : isWordChar c = false) (hA : c.toNat < 128) :
    tokenize (xs ++ c :: ys) = tokenize xs ++ tokenize ys ∧
    tokenize ([] : List Char) = [] ∧
    ((∀ x ∈ xs, x.isLower = true) → xs ≠ [] → tokenize xs = [xs]) := by
  obtain ⟨hal, hlo, hup⟩ := isWordChar_parts hw
  have hid : c.toLower = c := toLower_eq_self_of_not_upper c hup
  refine ⟨?_, rfl, ?_⟩
  · unfold tokenize
    rw [List.map_append, List.map_cons, hid]
    exact scanAux_append_sep c (ys.map Char.toLower) hw hlo (xs.map Char.toLower)
      true false []
  · intro hall hne
    have hmap : xs.map Char.toLower = xs := by
      have h1 : xs.map Char.toLower = xs.map id :=
        List.map_congr_left (fun x hx =>
          toLower_eq_self_of_not_upper x (isUpper_eq_false_of_isLower x (hall x hx)))
      simpa using h1
    unfold tokenize
    rw [hmap]
    cases xs with
    | nil => exact absurd rfl hne
    | cons x xr =>
      have hx : x.isLower = true := hall x (List.mem_cons_self _ _)
      simp only [scanAux, hx, if_true, List.isEmpty_nil]
      rw [scanAux_all_lower xr [x] false (by simp)
        (fun y hy => hall y (List.mem_cons_of_mem _ hy))]
      simp

/-- C1 witness: the amended separator law at `"hello" ++ ' ' ++ "world"`. -/
theorem tokenize_separator_amended_witness :
    tokenize ("hello".data ++ ' ' :: "world".data) =
      tokenize "hello".data ++ tokenize "world".data ∧
    tokenize ([] : List Char) = [] ∧
    ((∀ x ∈ "hello".data, x.isLower = true) → "hello".data ≠ [] →
      tokenize "hello".data = ["hello".data]) :=
  tokenize_separator_amended "hello".data "world".data ' ' (by decide) (by decide)

theorem bm25_idf_nonneg (N df : Nat) (h1 : 1 ≤ df) (h2 : df ≤ N) :
    0 ≤ bm25_idf N df := by
  unfold bm25_idf
  apply Real.log_nonneg
  have hd : (0:ℝ) < (df:ℝ) + 0.5 := by positivity
  have hn : (0:ℝ) ≤ (N:ℝ) - (df:ℝ) + 0.5 := by
    have : (df:ℝ) ≤ (N:ℝ) := Nat.cast_le.mpr h2
    linarith
  have := div_nonneg hn hd.le
  linarith

theorem bm25_idf_strict_anti (N df1 df2 : Nat) (h12 : df1 < df2)
    (h2N : df2 ≤ N) : bm25_idf N df2 < bm25_idf N df1 := by
  unfold bm25_idf
  have hd1 : (0:ℝ) < (df1:ℝ) + 0.5 := by positivity
  have hd2 : (0:ℝ) < (df2:ℝ) + 0.5 := by positivity
  have hc : (df1:ℝ) < (df2:ℝ) := Nat.cast_lt.mpr h12
  have hN : (df2:ℝ) ≤ (N:ℝ) := Nat.cast_le.mpr h2N
  have hn2 : (0:ℝ) ≤ (N:ℝ) - (df2:ℝ) + 0.5 := by linarith
  apply Real.log_lt_log
  · have := div_nonneg hn2 hd2.le
    linarith
  · rw [add_lt_add_iff_right, div_lt_div_iff₀ hd2 hd1]
    nlinarith [Nat.cast_nonneg (α := ℝ) N]

/-- C10: with `N` fixed, the BM25 `idf` term is non-negative for every
`df ∈ [1, N]`; and with `term_freq` and `doc_length` fixed (and a
positive average document length), `_bm25_score` strictly increases as
`df` decreases. -/
theorem bm25_idf_nonneg_and_df_mono (N df df1 df2 term_freq doc_length : Nat)
    (avg_dl : ℝ)
    (hdf1 : 1 ≤ df) (hdfN : df ≤ N)
    (h12 : df1 < df2) (h2N : df2 ≤ N)
    (havg : 0 < avg_dl) (htf : 1 ≤ term_freq) :
    0 ≤ bm25_idf N df ∧
    bm25_score N avg_dl term_freq doc_length df2 <
      bm25_score N avg_dl term_freq doc_length df1 := by
  constructor
  · exact bm25_idf_nonneg N df hdf1 hdfN
  · unfold bm25_score
    have htfr : (1:ℝ) ≤ (term_freq:ℝ) := by exact_mod_cast htf
    have hx : (0:ℝ) ≤ 0.75 * (doc_length:ℝ) / avg_dl :=
      div_nonneg (mul_nonneg (by norm_num) (Nat.cast_nonneg _)) havg.le
    have hnum : (0:ℝ) < (term_freq:ℝ) * (1.2 + 1) := by nlinarith
    have hden : (0:ℝ) < (term_freq:ℝ) + 1.2 * (1 - 0.75 + 0.75 * (doc_length:ℝ) / avg_dl) := by
      nlinarith
    have htfc : (0:ℝ) < ((term_freq:ℝ) * (1.2 + 1)) /
        ((term_freq:ℝ) + 1.2 * (1 - 0.75 + 0.75 * (doc_length:ℝ) / avg_dl)) :=
      div_pos hnum hden
    exact mul_lt_mul_of_pos_right (bm25_idf_strict_anti N df1 df2 h12 h2N) htfc

/-- C10 witness: the theorem at `N = 2`, `df = 1`, `df1 = 1 < df2 = 2`,
`term_freq = doc_length = 1`, `avg_dl = 1`. -/
theorem bm25_idf_nonneg_and_df_mono_witness :
    0 ≤ bm25_idf 2 1 ∧ bm25_score 2 1 1 1 2 < bm25_score 2 1 1 1 1 :=
  bm25_idf_nonneg_and_df_mono 2 1 1 2 1 1 1 (by decide) (by decide) (by decide)
    (by decide) one_pos (by decide)

theorem firstOccs_subset : ∀ (l : List (List Char)) (x : List Char),
    x ∈ firstOccs l → x ∈ l := by
  intro l
  induction l with
  | nil => intro x hx; simp [firstOccs] at hx
  | cons w ws ih =>
    intro x hx
    rw [firstOccs] at hx
    rcases List.mem_cons.mp hx with h | h
    · exact h ▸ List.mem_cons_self _ _
    · exact List.mem_cons_of_mem _ (ih x (List.mem_of_mem_filter h))

theorem firstOccs_complete : ∀ (l : List (List Char)) (x : List Char),
    x ∈ l → x ∈ firstOccs l := by
  intro l
  induction l with
  | nil => intro x hx; simp at hx
  | cons w ws ih =>
    intro x hx
    rw [firstOccs]
    rcases List.mem_cons.mp hx with h | h
    · exact h ▸ List.mem_cons_self _ _
    · by_cases hxw : x = w
      · exact hxw ▸ List.mem_cons_self _ _
      · exact List.mem_cons_of_mem _
          (List.mem_filter.mpr ⟨ih x h, by simpa using hxw⟩)

theorem firstOccs_nodup : ∀ (l : List (List Char)), (firstOccs l).Nodup := by
  intro l
  induction l with
  | nil => simp [firstOccs]
  | cons w ws ih =>
    rw [firstOccs]
    refine List.Nodup.cons ?_ (ih.filter _)
    intro hmem
    have := List.of_mem_filter hmem
    simp at this

theorem firstOccs_toFinset (l : List (List Char)) :
    (firstOccs l).toFinset = l.toFinset := by
  apply Finset.ext
  intro x
  simp only [List.mem_toFinset]
  exact ⟨firstOccs_subset l x, firstOccs_complete l x⟩

theorem firstOccs_count_sum : ∀ (l : List (List Char)),
    ((firstOccs l).map (fun w => l.count w)).sum = l.length := by
  intro l
  rw [← List.sum_toFinset _ (firstOccs_nodup l), firstOccs_toFinset]
  have hcc : ∀ (w : List Char) (m : List (List Char)),
      m.count w = @List.count _ instBEqOfDecidableEq w m := by
    intro w m
    have h1 : m.count w = m.countP (fun x => x == w) := rfl
    have h2 : @List.count _ instBEqOfDecidableEq w m =
        m.countP (fun x => @BEq.beq _ instBEqOfDecidableEq x w) := rfl
    rw [h1, h2]
    have hpred : (fun x : List Char => x == w) =
        (fun x => @BEq.beq _ instBEqOfDecidableEq x w) := by
      funext x
      by_cases hx : x = w
      · subst hx
        have e1 : (x == x) = true := beq_self_eq_true x
        have e2 : (@BEq.beq _ instBEqOfDecidableEq x x) = true := decide_eq_true rfl
        rw [e1, e2]
      · have e1 : (x == w) = false := beq_eq_false_iff_ne.mpr hx
        have e2 : (@BEq.beq _ instBEqOfDecidableEq x w) = false := decide_eq_false hx
        rw [e1, e2]
    rw [hpred]
  have h1 : ∀ w, l.count w = Multiset.count w (↑l : Multiset (List Char)) := by
    intro w
    rw [hcc w l]
    exact (Multiset.coe_count w l).symm
  have h2 : l.toFinset = (↑l : Multiset (List Char)).toFinset := rfl
  rw [h2]
  calc ((↑l : Multiset (List Char)).toFinset).sum (fun w => l.count w)
      = ((↑l : Multiset (List Char)).toFinset).sum
          (fun w => Multiset.count w (↑l : Multiset (List Char))) := by
        apply Finset.sum_congr rfl
        intro w _
        exact h1 w
    _ = Multiset.card (↑l : Multiset (List Char)) :=
        Multiset.toFinset_sum_count_eq _
    _ = l.length := by simp

theorem addPosting_mem_cases (idx : List (List Char × List (Nat × Nat)))
    (w : List Char) (p : Nat × Nat) :
    ∀ e ∈ addPosting idx w p,
      e ∈ idx ∨ (∃ ps, (w, ps) ∈ idx ∧ e = (w, ps ++ [p])) ∨ e = (w, [p]) := by
  induction idx with
  | nil =>
    intro e he
    simp [addPosting] at he
    right; right; exact he
  | cons a rest ih =>
    intro e he
    obtain ⟨w', ps⟩ := a
    rw [addPosting] at he
    by_cases hw : w' = w
    · subst hw
      rw [if_pos rfl] at he
      rcases List.mem_cons.mp he with h | h
      · right; left; exact ⟨ps, List.mem_cons_self _ _, h⟩
      · left; exact List.mem_cons_of_mem _ h
    · rw [if_neg hw] at he
      rcases List.mem_cons.mp he with h | h
      · left; exact h ▸ List.mem_cons_self _ _
      · rcases ih e h with h1 | h1 | h1
        · left; exact List.mem_cons_of_mem _ h1
        · right; left
          obtain ⟨qs, hq, he'⟩ := h1
          exact ⟨qs, List.mem_cons_of_mem _ hq, he'⟩
        · right; right; exact h1

theorem addPosting_totalTf (idx : List (List Char × List (Nat × Nat)))
    (w : List Char) (p : Nat × Nat) :
    ((addPosting idx w p).map (fun e => (e.2.map Prod.snd).sum)).sum =
      (idx.map (fun e => (e.2.map Prod.snd).sum)).sum + p.2 := by
  induction idx with
  | nil => simp [addPosting]
  | cons a rest ih =>
    obtain ⟨w', ps⟩ := a
    rw [addPosting]
    by_cases hw : w' = w
    · rw [if_pos hw]
      simp [List.map_append]
      omega
    · rw [if_neg hw]
      simp only [List.map_cons, List.sum_cons, ih]
      omega

theorem foldAdd_totalTf (n : Nat) :
    ∀ (ws : List (List Char × Nat)) (idx : List (List Char × List (Nat × Nat))),
    ((ws.foldl (fun ix wc => addPosting ix wc.1 (n, wc.2)) idx).map
        (fun e => (e.2.map Prod.snd).sum)).sum =
      (idx.map (fun e => (e.2.map Prod.snd).sum)).sum + (ws.map Prod.snd).sum := by
  intro ws
  induction ws with
  | nil => intro idx; simp
  | cons wc rest ih =>
    intro idx
    rw [List.foldl_cons, ih, addPosting_totalTf]
    simp only [List.map_cons, List.sum_cons]
    omega

theorem foldAdd_inv (n : Nat) :
    ∀ (ws : List (List Char × Nat)) (idx : List (List Char × List (Nat × Nat))),
    (ws.map Prod.fst).Nodup →
    (∀ wc ∈ ws, 1 ≤ wc.2) →
    (∀ e ∈ idx, List.Chain' (fun p q => p.1 < q.1) e.2 ∧
        (∀ p ∈ e.2, 1 ≤ p.2 ∧ p.1 ≤ n) ∧
        (e.1 ∈ ws.map Prod.fst → ∀ p ∈ e.2, p.1 < n)) →
    ∀ e ∈ ws.foldl (fun ix wc => addPosting ix wc.1 (n, wc.2)) idx,
      List.Chain' (fun p q => p.1 < q.1) e.2 ∧ (∀ p ∈ e.2, 1 ≤ p.2 ∧ p.1 ≤ n) := by
  intro ws
  induction ws with
  | nil =>
    intro idx _ _ hidx e he
    exact ⟨(hidx e he).1, (hidx e he).2.1⟩
  | cons wc rest ih =>
    intro idx hnodup hcounts hidx
    rw [List.foldl_cons]
    have hnodup' : (rest.map Prod.fst).Nodup := by
      rw [List.map_cons] at hnodup
      exact (List.nodup_cons.mp hnodup).2
    have hwc_notin : wc.1 ∉ rest.map Prod.fst := by
      rw [List.map_cons] at hnodup
      exact (List.nodup_cons.mp hnodup).1
    apply ih
    · exact hnodup'
    · intro x hx
      exact hcounts x (List.mem_cons_of_mem _ hx)
    · intro e he
      rcases addPosting_mem_cases idx wc.1 (n, wc.2) e he with h | h | h
      · obtain ⟨hch, hb, hin⟩ := hidx e h
        refine ⟨hch, hb, fun hmem => hin ?_⟩
        rw [List.map_cons]
        exact List.mem_cons_of_mem _ hmem
      · obtain ⟨ps, hps, he'⟩ := h
        obtain ⟨hch, hb, hin⟩ := hidx (wc.1, ps) hps
        have hlt : ∀ p ∈ ps, p.1 < n := by
          apply hin
          rw [List.map_cons]
          exact List.mem_cons_self _ _
        subst he'
        refine ⟨?_, ?_, ?_⟩
        · rw [List.chain'_append]
          refine ⟨hch, List.chain'_singleton _, ?_⟩
          intro x hx y hy
          have hxm : x ∈ ps := List.mem_of_mem_getLast? hx
          have hym : (n, wc.2) = y := by simpa using hy
          subst hym
          exact hlt x hxm
        · intro p hp
          rcases List.mem_append.mp hp with h1 | h1
          · exact hb p h1
          · have : p = (n, wc.2) := by simpa using h1
            subst this
            exact ⟨hcounts wc (List.mem_cons_self _ _), le_refl n⟩
        · intro hmem
          exact absurd hmem hwc_notin
      · subst h
        refine ⟨List.chain'_singleton _, ?_, fun hmem => absurd hmem hwc_notin⟩
        intro p hp
        have : p = (n, wc.2) := by simpa using hp
        subst this
        exact ⟨hcounts wc (List.mem_cons_self _ _), le_refl n⟩

theorem counterOf_fst (words : List (List Char)) :
    (counterOf words).map Prod.fst = firstOccs words := by
  rw [counterOf, List.map_map]
  exact List.map_id (firstOccs words)

theorem counterOf_counts (words : List (List Char)) :
    ∀ wc ∈ counterOf words, 1 ≤ wc.2 := by
  intro wc hwc
  rw [counterOf] at hwc
  obtain ⟨w, hw, hmk⟩ := List.mem_map.mp hwc
  subst hmk
  have : w ∈ words := firstOccs_subset _ _ hw
  simpa [Nat.one_le_iff_ne_zero, Nat.pos_iff_ne_zero] using
    List.count_pos_iff.mpr this

theorem counterOf_snd_sum (words : List (List Char)) :
    ((counterOf words).map Prod.snd).sum = words.length := by
  rw [counterOf, List.map_map]
  have : (Prod.snd ∘ fun w => (w, words.count w)) = fun w => words.count w := rfl
  rw [this]
  exact firstOccs_count_sum words

theorem build_fold_inv :
    ∀ (docs : List (String × Nat × Nat × Hadith)) (st : BuildState),
    st.doc_metadata.map Prod.fst = List.range st.next_id →
    (∀ e ∈ st.inverted_index, List.Chain' (fun p q => p.1 < q.1) e.2 ∧
        ∀ p ∈ e.2, 1 ≤ p.2 ∧ p.1 < st.next_id) →
    (st.inverted_index.map (fun e => (e.2.map Prod.snd).sum)).sum =
      (st.doc_metadata.map (fun p => p.2.doc_length)).sum →
    ((docs.foldl (fun s d => buildDoc d.1 d.2.1 d.2.2.1 d.2.2.2 s) st).doc_metadata.map
        Prod.fst =
      List.range (docs.foldl (fun s d => buildDoc d.1 d.2.1 d.2.2.1 d.2.2.2 s) st).next_id) ∧
    (∀ e ∈ (docs.foldl (fun s d => buildDoc d.1 d.2.1 d.2.2.1 d.2.2.2 s) st).inverted_index,
        List.Chain' (fun p q => p.1 < q.1) e.2 ∧
        ∀ p ∈ e.2, 1 ≤ p.2 ∧
          p.1 < (docs.foldl (fun s d => buildDoc d.1 d.2.1 d.2.2.1 d.2.2.2 s) st).next_id) ∧
    (((docs.foldl (fun s d => buildDoc d.1 d.2.1 d.2.2.1 d.2.2.2 s) st).inverted_index.map
        (fun e => (e.2.map Prod.snd).sum)).sum =
      ((docs.foldl (fun s d => buildDoc d.1 d.2.1 d.2.2.1 d.2.2.2 s) st).doc_metadata.map
        (fun p => p.2.doc_length)).sum) := by
  intro docs
  induction docs with
  | nil =>
    intro st h1 h2 h3
    exact ⟨h1, h2, h3⟩
  | cons d rest ih =>
    intro st h1 h2 h3
    rw [List.foldl_cons]
    apply ih
    · rw [buildDoc]
      simp only [List.map_append, h1, List.map_cons, List.map_nil]
      exact (List.range_succ st.next_id).symm
    · intro e he
      rw [buildDoc] at he
      simp only at he
      have hinner := foldAdd_inv st.next_id (counterOf (tokenize d.2.2.2.searchableText))
        st.inverted_index
        (by rw [counterOf_fst]; exact firstOccs_nodup _)
        (counterOf_counts _)
        (fun e' he' => ⟨(h2 e' he').1,
          fun p hp => ⟨((h2 e' he').2 p hp).1, Nat.le_of_lt ((h2 e' he').2 p hp).2⟩,
          fun _ p hp => ((h2 e' he').2 p hp).2⟩)
        e he
      exact ⟨hinner.1, fun p hp =>
        ⟨(hinner.2 p hp).1, Nat.lt_succ_of_le (hinner.2 p hp).2⟩⟩
    · rw [buildDoc]
      simp only
      rw [foldAdd_totalTf, counterOf_snd_sum, h3]
      simp

/-- C8: invariants of `_build_inverted_index` on any loaded corpus:
doc-ids form the contiguous range `[0, N)`; posting lists are strictly
ascending in doc-id (hence duplicate-free); every recorded term frequency
is at least 1; and the total of term frequencies over all postings equals
the total of `doc_length` over all documents. -/
theorem build_index_invariants (si : SearchIndex) :
    ((build_inverted_index si).doc_metadata.map Prod.fst =
      List.range (build_inverted_index si).doc_metadata.length) ∧
    (∀ e ∈ (build_inverted_index si).inverted_index,
        List.Chain' (fun p q => p.1 < q.1) e.2 ∧ (e.2.map Prod.fst).Nodup) ∧
    (∀ e ∈ (build_inverted_index si).inverted_index, ∀ p ∈ e.2, 1 ≤ p.2) ∧
    (((build_inverted_index si).inverted_index.map
        (fun e => (e.2.map Prod.snd).sum)).sum =
      ((build_inverted_index si).doc_metadata.map
        (fun p => p.2.doc_length)).sum) := by
  have h := build_fold_inv (docsOf si) ⟨[], [], 0⟩ (by simp) (by simp) (by simp)
  rw [show (docsOf si).foldl (fun s d => buildDoc d.1 d.2.1 d.2.2.1 d.2.2.2 s)
      ⟨[], [], 0⟩ = build_inverted_index si from rfl] at h
  obtain ⟨h1, h2, h3⟩ := h
  have hlen : (build_inverted_index si).doc_metadata.length =
      (build_inverted_index si).next_id := by
    have := congrArg List.length h1
    simpa using this
  refine ⟨?_, ?_, ?_, ?_⟩
  · rw [hlen]
    exact h1
  · intro e he
    refine ⟨(h2 e he).1, ?_⟩
    have hpw : List.Pairwise (fun p q : Nat × Nat => p.1 < q.1) e.2 := by
      haveI : IsTrans (Nat × Nat) (fun p q => p.1 < q.1) :=
        ⟨fun _ _ _ hab hbc => lt_trans hab hbc⟩
      exact List.chain'_iff_pairwise.mp ((h2 e he).1)
    have hpm : List.Pairwise (· < ·) (e.2.map Prod.fst) :=
      List.pairwise_map.mpr hpw
    exact hpm.imp ne_of_lt
  · intro e he p hp
    exact ((h2 e he).2 p hp).1
  · exact h3

theorem lookupA_mem {κ β : Type} [DecidableEq κ] :
    ∀ (l : List (κ × β)) (k : κ) (v : β), lookupA l k = some v → (k, v) ∈ l := by
  intro l
  induction l with
  | nil => intro k v h; simp [lookupA] at h
  | cons a rest ih =>
    intro k v h
    obtain ⟨k', v'⟩ := a
    rw [lookupA] at h
    by_cases hk : k' = k
    · rw [if_pos hk] at h
      have := Option.some.inj h
      subst hk
      subst this
      exact List.mem_cons_self _ _
    · rw [if_neg hk] at h
      exact List.mem_cons_of_mem _ (ih k v h)

theorem addScore_lookup {α : Type} [AddCommMonoid α]
    (ds : List (Nat × α)) (d d' : Nat) (s : α) :
    (lookupA (addScore ds d s) d').getD 0 =
      if d = d' then (lookupA ds d').getD 0 + s else (lookupA ds d').getD 0 := by
  induction ds with
  | nil =>
    by_cases h : d = d'
    · subst h; simp [addScore, lookupA]
    · simp [addScore, lookupA, h]
  | cons a rest ih =>
    obtain ⟨k, v⟩ := a
    rw [addScore]
    by_cases hk : k = d
    · rw [if_pos hk]
      by_cases h' : k = d'
      · rw [lookupA, if_pos h', lookupA, if_pos h', if_pos (hk ▸ h')]
        simp
      · rw [lookupA, if_neg h', lookupA, if_neg h',
          if_neg (fun hc : d = d' => h' (by rw [hk, hc]))]
    · rw [if_neg hk]
      by_cases h' : k = d'
      · rw [lookupA, if_pos h', lookupA, if_pos h',
          if_neg (fun hc : d = d' => hk (by rw [hc, ← h']))]
      · rw [lookupA, if_neg h', lookupA, if_neg h']
        exact ih

theorem foldScores_notin {α : Type} [AddCommMonoid α] (core : Core α)
    (df : Nat) (d : Nat) :
    ∀ (ps : List (Nat × Nat)), d ∉ ps.map Prod.fst → ∀ (ds : List (Nat × α)),
    (lookupA (ps.foldl (fun ds p =>
        addScore ds p.1 (core.scoreOf p.2 (doc_length_of core p.1) df)) ds) d).getD 0 =
      (lookupA ds d).getD 0 := by
  intro ps
  induction ps with
  | nil => intro _ ds; rfl
  | cons q rest ih =>
    intro hd ds
    rw [List.foldl_cons]
    have hq : q.1 ≠ d := by
      intro hc
      exact hd (by rw [List.map_cons, hc]; exact List.mem_cons_self _ _)
    rw [ih (fun hc => hd (by rw [List.map_cons]; exact List.mem_cons_of_mem _ hc)),
      addScore_lookup, if_neg hq]

theorem foldScores_lookup {α : Type} [AddCommMonoid α] (core : Core α)
    (df : Nat) (d : Nat) :
    ∀ (ps : List (Nat × Nat)), (ps.map Prod.fst).Nodup → ∀ (ds : List (Nat × α)),
    (lookupA (ps.foldl (fun ds p =>
        addScore ds p.1 (core.scoreOf p.2 (doc_length_of core p.1) df)) ds) d).getD 0 =
      (lookupA ds d).getD 0 +
        (match ps.find? (fun p => p.1 == d) with
         | some p => core.scoreOf p.2 (doc_length_of core d) df
         | none => 0) := by
  intro ps
  induction ps with
  | nil =>
    intro _ ds
    rw [List.foldl_nil, List.find?_nil]
    simp
  | cons q rest ih =>
    intro hnd ds
    rw [List.foldl_cons]
    rw [List.map_cons, List.nodup_cons] at hnd
    by_cases hq : q.1 = d
    · rw [foldScores_notin core df d rest (hq ▸ hnd.1), addScore_lookup, if_pos hq]
      have hfind : (q :: rest).find? (fun p => p.1 == d) = some q := by
        rw [List.find?_cons]
        simp [hq]
      rw [hfind, hq]
    · rw [ih hnd.2, addScore_lookup, if_neg hq]
      have hbeq : (q.1 == d) = false := by simpa using hq
      have hfind : (q :: rest).find? (fun p => p.1 == d) =
          rest.find? (fun p => p.1 == d) := by
        rw [List.find?_cons, hbeq]
      rw [hfind]

theorem scoreWord_lookup {α : Type} [AddCommMonoid α] (core : Core α)
    (hnd : ∀ e ∈ core.inverted_index, (e.2.map Prod.fst).Nodup)
    (w : List Char) (d : Nat) (ds : List (Nat × α)) :
    (lookupA (scoreWord core ds w) d).getD 0 =
      (lookupA ds d).getD 0 + wordContribution core d w := by
  rw [scoreWord, wordContribution]
  cases hw : lookupA core.inverted_index w with
  | none => simp
  | some ps =>
    have hmem : (w, ps) ∈ core.inverted_index := lookupA_mem _ _ _ hw
    have hndp : ((effectivePostings ps).map Prod.fst).Nodup := by
      have hsub : List.Sublist (effectivePostings ps) ps := by
        rw [effectivePostings]
        by_cases hl : ps.length < 100
        · rw [if_pos hl]
        · rw [if_neg hl]
          exact List.take_sublist _ _
      exact (hnd (w, ps) hmem).sublist (hsub.map Prod.fst)
    exact foldScores_lookup core ps.length d (effectivePostings ps) hndp ds

theorem accumScores_fold_lookup {α : Type} [AddCommMonoid α] (core : Core α)
    (hnd : ∀ e ∈ core.inverted_index, (e.2.map Prod.fst).Nodup) (d : Nat) :
    ∀ (qws : List (List Char)) (ds : List (Nat × α)),
    (lookupA (qws.foldl (scoreWord core) ds) d).getD 0 =
      (lookupA ds d).getD 0 + (qws.map (wordContribution core d)).sum := by
  intro qws
  induction qws with
  | nil => intro ds; simp
  | cons w rest ih =>
    intro ds
    rw [List.foldl_cons, ih, scoreWord_lookup core hnd, List.map_cons,
      List.sum_cons, add_assoc]

/-- C7: the accumulated score of document `d` after phase 1 of
`search_hadith` is the sum, over the query-word occurrences, of that
word's contribution — where a word contributes `scoreOf tf dl df` exactly
when `d` occurs among its EFFECTIVE postings, the effective postings
being the full list when `df < 100` and the first `min(1000, df)`
(smallest doc-ids) otherwise; postings beyond that prefix contribute
nothing to any document. -/
theorem accumScores_characterization {α : Type} [AddCommMonoid α]
    (core : Core α) (query_words : List (List Char)) (d : Nat)
    (hnd : ∀ e ∈ core.inverted_index, (e.2.map Prod.fst).Nodup) :
    (lookupA (accumScores core query_words) d).getD 0 =
      (query_words.map (wordContribution core d)).sum ∧
    (∀ ps : List (Nat × Nat), ps.length < 100 → effectivePostings ps = ps) ∧
    (∀ ps : List (Nat × Nat), 100 ≤ ps.length →
      effectivePostings ps = ps.take (min 1000 ps.length)) := by
  refine ⟨?_, ?_, ?_⟩
  · rw [accumScores, accumScores_fold_lookup core hnd]
    simp [lookupA]
  · intro ps h
    rw [effectivePostings, if_pos h]
  · intro ps h
    rw [effectivePostings, if_neg (not_lt.mpr h)]

/-- C7 witness: the characterization on a one-document index with a unit
scorer, at the query `"prophet prophet x"` and document 0. -/
theorem accumScores_characterization_witness :
    (lookupA (accumScores coreNat (tokenize "prophet prophet x".data)) 0).getD 0 =
      ((tokenize "prophet prophet x".data).map (wordContribution coreNat 0)).sum ∧
    (∀ ps : List (Nat × Nat), ps.length < 100 → effectivePostings ps = ps) ∧
    (∀ ps : List (Nat × Nat), 100 ≤ ps.length →
      effectivePostings ps = ps.take (min 1000 ps.length)) :=
  accumScores_characterization coreNat (tokenize "prophet prophet x".data) 0
    (by decide)

theorem mem_insertDescBy {α β : Type} [LinearOrder α] (key : β → α) (x y : β) :
    ∀ (l : List β), y ∈ insertDescBy key x l ↔ y = x ∨ y ∈ l := by
  intro l
  induction l with
  | nil => simp [insertDescBy]
  | cons a as ih =>
    rw [insertDescBy]
    by_cases h : key x < key a
    · rw [if_pos h]
      simp only [List.mem_cons, ih]
      tauto
    · rw [if_neg h]
      simp only [List.mem_cons]

theorem sorted_insertDescBy {α β : Type} [LinearOrder α] (key : β → α) (x : β) :
    ∀ (l : List β), List.Sorted (fun a b => key b ≤ key a) l →
    List.Sorted (fun a b => key b ≤ key a) (insertDescBy key x l) := by
  intro l
  induction l with
  | nil => intro _; simp [insertDescBy]
  | cons a as ih =>
    intro hs
    rw [List.sorted_cons] at hs
    rw [insertDescBy]
    by_cases h : key x < key a
    · rw [if_pos h]
      rw [List.sorted_cons]
      refine ⟨?_, ih hs.2⟩
      intro b hb
      rcases (mem_insertDescBy key x b as).mp hb with h1 | h1
      · exact h1 ▸ le_of_lt h
      · exact hs.1 b h1
    · rw [if_neg h]
      rw [List.sorted_cons]
      refine ⟨?_, List.sorted_cons.mpr hs⟩
      intro b hb
      rcases List.mem_cons.mp hb with h1 | h1
      · exact h1 ▸ not_lt.mp h
      · exact le_trans (hs.1 b h1) (not_lt.mp h)

theorem sorted_sortDescBy {α β : Type} [LinearOrder α] (key : β → α) :
    ∀ (l : List β), List.Sorted (fun a b => key b ≤ key a) (sortDescBy key l) := by
  intro l
  induction l with
  | nil => simp [sortDescBy]
  | cons x xs ih =>
    rw [sortDescBy]
    exact sorted_insertDescBy key x _ ih

theorem sortDescBy_of_sorted {α β : Type} [LinearOrder α] (key : β → α) :
    ∀ (l : List β), List.Sorted (fun a b => key b ≤ key a) l →
    sortDescBy key l = l := by
  intro l
  induction l with
  | nil => intro _; rfl
  | cons x xs ih =>
    intro hs
    rw [List.sorted_cons] at hs
    rw [sortDescBy, ih hs.2]
    cases xs with
    | nil => rfl
    | cons y ys =>
      rw [insertDescBy, if_neg (not_lt.mpr (hs.1 y (List.mem_cons_self _ _)))]

theorem sorted_take {α β : Type} [LinearOrder α] (key : β → α)
    (l : List β) (n : Nat) (h : List.Sorted (fun a b => key b ≤ key a) l) :
    List.Sorted (fun a b => key b ≤ key a) (l.take n) :=
  h.sublist (List.take_sublist n l)

theorem selectTop_eq {α : Type} [LinearOrder α] [OfNat α 2] (limit : Nat)
    (ds : List (Nat × α)) :
    selectTop limit ds = (sortDescBy (fun p => p.2) ds).take limit := by
  rw [selectTop]
  by_cases h1 : limit * 3 < ds.length
  · rw [if_pos h1]
    set top := (sortDescBy (fun p : Nat × α => p.2) ds).take (limit * 2) with htop
    by_cases h2 : limit ≤ top.length
    · rw [if_pos h2]
      cases hget : top.get? (limit - 1) with
      | none => rfl
      | some p =>
        dsimp only
        by_cases h3 : (2 : α) < p.2
        · rw [if_pos h3]
          have hsorted : List.Sorted (fun a b : Nat × α => b.2 ≤ a.2)
              (top.take limit) :=
            sorted_take (fun p : Nat × α => p.2) _ _
              (sorted_take (fun p : Nat × α => p.2) _ _
                (sorted_sortDescBy (fun p : Nat × α => p.2) ds))
          rw [sortDescBy_of_sorted _ _ hsorted]
          rw [htop, List.take_take, List.take_take]
          congr 1
          omega
        · rw [if_neg h3]
    · rw [if_neg h2]
  · rw [if_neg h1]

theorem materializeOne_score {α : Type} (core : Core α) (p : Nat × α) :
    (materializeOne core p).score = p.2 := rfl

/-- C3 amended: the result list of `search_hadith` equals the stable
descending sort of the score accumulator truncated to `limit` — in the
early-termination path as well — so results are ordered by accumulated
score descending, with ties broken by the order in which documents first
entered `doc_scores` (ascending doc-id for single-word queries, but NOT
in general), and the list is sorted by score descending. Faithful to the
source for `limit ≥ 1` (at `limit = 0` the source raises `IndexError`).
-/
theorem search_hadith_sorted_amended {α : Type} [LinearOrder α] [OfNat α 2]
    [AddCommMonoid α] (core : Core α) (query : String) (limit : Nat)
    (hl : 1 ≤ limit) :
    search_hadith_core core query limit =
      ((sortDescBy (fun p => p.2)
        (accumScores core (tokenize query.data))).take limit).map
        (materializeOne core) ∧
    List.Sorted (fun r1 r2 : Rec α => r2.score ≤ r1.score)
      (search_hadith_core core query limit) := by
  have heq : search_hadith_core core query limit =
      ((sortDescBy (fun p => p.2)
        (accumScores core (tokenize query.data))).take limit).map
        (materializeOne core) := by
    rw [search_hadith_core]
    by_cases hq : query = ""
    · rw [if_pos hq]
      subst hq
      have h0 : accumScores core (tokenize "".data) = [] := rfl
      rw [h0]
      simp [sortDescBy]
    · rw [if_neg hq]
      dsimp only
      by_cases hw : tokenize query.data = []
      · rw [if_pos hw, hw]
        have h0 : accumScores core ([] : List (List Char)) = [] := rfl
        rw [h0]
        simp [sortDescBy]
      · rw [if_neg hw, selectTop_eq]
  refine ⟨heq, ?_⟩
  rw [heq]
  rw [List.Sorted, List.pairwise_map]
  have hs : List.Sorted (fun a b : Nat × α => b.2 ≤ a.2)
      ((sortDescBy (fun p : Nat × α => p.2)
        (accumScores core (tokenize query.data))).take limit) :=
    sorted_take (fun p : Nat × α => p.2) _ _
      (sorted_sortDescBy (fun p : Nat × α => p.2) _)
  exact hs

/-- C3 witness: the amended statement on the unit-scored fixture engine
at query `"prophet"`, `limit = 1`. -/
theorem search_hadith_sorted_amended_witness :
    (search_hadith_core coreNat "prophet" 1 =
      ((sortDescBy (fun p => p.2)
        (accumScores coreNat (tokenize "prophet".data))).take 1).map
        (materializeOne coreNat) ∧
    List.Sorted (fun r1 r2 : Rec Nat => r2.score ≤ r1.score)
      (search_hadith_core coreNat "prophet" 1)) :=
  search_hadith_sorted_amended coreNat "prophet" 1 (by decide)

/-- C3 counterexample: on `corpusTie` the query `"alpha beta"` gives
doc 1 (body `"A"`) and doc 0 (body `"B"`) exactly equal BM25 scores, and
the source returns doc 1 FIRST — insertion order of the accumulator, not
ascending doc-id as the claim states. -/
theorem search_tie_breaks_by_insertion_cex :
    (search_hadith_core coreTie "alpha beta" 2).map (fun r => r.body_en) =
      [['A'], ['B']] ∧
    (search_hadith_core coreTie "alpha beta" 2).map (fun r => r.score) =
      [coreTie.scoreOf 1 1 1, coreTie.scoreOf 1 1 1] := by
  have htok : tokenize "alpha beta".data = ["alpha".data, "beta".data] := by
    decide
  have hacc : accumScores coreTie (tokenize "alpha beta".data) =
      [(1, coreTie.scoreOf 1 1 1), (0, coreTie.scoreOf 1 1 1)] := rfl
  have hsort : sortDescBy (fun p : Nat × ℝ => p.2)
      [(1, coreTie.scoreOf 1 1 1), (0, coreTie.scoreOf 1 1 1)] =
      [(1, coreTie.scoreOf 1 1 1), (0, coreTie.scoreOf 1 1 1)] := by
    rw [sortDescBy, sortDescBy, sortDescBy, insertDescBy, insertDescBy,
      if_neg (lt_irrefl (coreTie.scoreOf 1 1 1))]
  have hmain : search_hadith_core coreTie "alpha beta" 2 =
      ((sortDescBy (fun p : Nat × ℝ => p.2)
        (accumScores coreTie (tokenize "alpha beta".data))).take 2).map
        (materializeOne coreTie) := by
    rw [search_hadith_core, if_neg (by decide : ¬("alpha beta" = ""))]
    dsimp only
    rw [if_neg (by rw [htok]; decide), selectTop_eq]
  rw [hmain, hacc, hsort]
  constructor
  · rfl
  · rfl

theorem bm25_score_one_doc_pos : (0:ℝ) < bm25_score 1 1 1 1 1 := by
  have h : bm25_score 1 1 1 1 1 = Real.log (4/3) *
      ((1 * (1.2 + 1)) / (1 + 1.2 * (1 - 0.75 + 0.75 * 1 / 1))) := by
    simp only [bm25_score, bm25_idf, Nat.cast_one]
    norm_num
  rw [h]
  have hlog : (0:ℝ) < Real.log (4/3) := Real.log_pos (by norm_num)
  have hc : (0:ℝ) < (1 * (1.2 + 1)) / (1 + 1.2 * (1 - 0.75 + 0.75 * 1 / 1)) := by
    norm_num
  exact mul_pos hlog hc

/-- C2 (code bug): `_normalize_query` is computed and never used by
`search_hadith`, and `functools.lru_cache` keys the memo on the RAW
`(query, limit)` pair. Two queries with equal normalization produce
DIFFERENT result lists (a duplicated query word doubles the accumulated
score), and the cache entry a call creates is keyed by the raw query,
not `(normalized-query, limit)`. -/
theorem search_normalization_divergence :
    normalize_query "mercy" = normalize_query "mercy mercy" ∧
    search_hadith_core coreMercy "mercy" 5 ≠
      search_hadith_core coreMercy "mercy mercy" 5 ∧
    (search_hadith stMercy "mercy mercy" 5).1.basicCache.map Prod.fst =
      [("mercy mercy", 5)] := by
  refine ⟨by decide, ?_, ?_⟩
  · have hA : search_hadith_core coreMercy "mercy" 5 =
        [materializeOne coreMercy (0, coreMercy.scoreOf 1 1 1)] := rfl
    have hB : search_hadith_core coreMercy "mercy mercy" 5 =
        [materializeOne coreMercy
          (0, coreMercy.scoreOf 1 1 1 + coreMercy.scoreOf 1 1 1)] := rfl
    rw [hA, hB]
    intro hcontra
    have h1 : materializeOne coreMercy (0, coreMercy.scoreOf 1 1 1) =
        materializeOne coreMercy
          (0, coreMercy.scoreOf 1 1 1 + coreMercy.scoreOf 1 1 1) := by
      injection hcontra
    have h2 : coreMercy.scoreOf 1 1 1 =
        coreMercy.scoreOf 1 1 1 + coreMercy.scoreOf 1 1 1 :=
      congrArg Rec.score h1
    have hpos : (0:ℝ) < coreMercy.scoreOf 1 1 1 := by
      have he : coreMercy.scoreOf 1 1 1 = bm25_score 1 (avg_doc_length ⟨1, 1⟩) 1 1 1 :=
        rfl
      have havg : avg_doc_length ⟨1, 1⟩ = 1 := by
        rw [avg_doc_length]
        norm_num
      rw [he, havg]
      exact bm25_score_one_doc_pos
    linarith
  · rfl

theorem extendLeft_le (tl : List Char) : ∀ (i : Nat), extendLeft tl i ≤ i := by
  intro i
  induction i with
  | zero => exact le_refl 0
  | succ i ih =>
    rw [extendLeft]
    by_cases h : (tl.getD i ' ').isAlpha
    · rw [if_pos h]
      exact le_trans ih (Nat.le_succ i)
    · rw [if_neg h]

theorem extendRightAux_ge (tl : List Char) :
    ∀ (fuel i : Nat), i ≤ extendRightAux tl fuel i := by
  intro fuel
  induction fuel with
  | zero => intro i; exact le_refl i
  | succ fuel ih =>
    intro i
    rw [extendRightAux]
    by_cases h1 : i < tl.length
    · rw [if_pos h1]
      by_cases h2 : (tl.getD i ' ').isAlpha
      · rw [if_pos h2]
        exact le_trans (Nat.le_succ i) (ih (i + 1))
      · rw [if_neg h2]
    · rw [if_neg h1]

theorem extendRight_ge (tl : List Char) (i : Nat) : i ≤ extendRight tl i :=
  extendRightAux_ge tl _ i

theorem collectOccs_length_le (tl w : List Char) :
    ∀ (fuel start : Nat), (collectOccs tl w fuel start).length ≤ fuel := by
  intro fuel
  induction fuel with
  | zero => intro start; exact le_refl 0
  | succ fuel ih =>
    intro start
    rw [collectOccs]
    cases findFrom tl w start with
    | none => exact Nat.zero_le _
    | some pos =>
      rw [List.length_cons]
      exact Nat.succ_le_succ (ih (pos + 1))

theorem collectOccs_lt (tl w : List Char) (hw : w ≠ []) :
    ∀ (fuel start : Nat), ∀ se ∈ collectOccs tl w fuel start, se.1 < se.2 := by
  intro fuel
  induction fuel with
  | zero => intro start se hse; simp [collectOccs] at hse
  | succ fuel ih =>
    intro start se hse
    rw [collectOccs] at hse
    cases hf : findFrom tl w start with
    | none => rw [hf] at hse; simp at hse
    | some pos =>
      rw [hf] at hse
      rcases List.mem_cons.mp hse with h | h
      · subst h
        have h1 : extendLeft tl pos ≤ pos := extendLeft_le tl pos
        have h2 : pos + w.length ≤ extendRight tl (pos + w.length) :=
          extendRight_ge tl _
        have h3 : 1 ≤ w.length := by
          cases w
          · exact absurd rfl hw
          · simp
        simp only
        omega
      · exact ih (pos + 1) se h

theorem tokens_nonempty : ∀ (l : List Char) (p ok : Bool) (run : List Char),
    ∀ t ∈ scanAux p run ok l, t ≠ [] := by
  intro l
  induction l with
  | nil =>
    intro p ok run t ht
    rw [scanAux] at ht
    by_cases h1 : run.isEmpty
    · rw [if_pos h1] at ht; simp at ht
    · rw [if_neg h1] at ht
      by_cases h2 : ok
      · rw [if_pos h2] at ht
        have : t = run.reverse := by simpa using ht
        subst this
        intro hc
        rw [List.reverse_eq_nil_iff] at hc
        subst hc
        simp at h1
      · rw [if_neg h2] at ht; simp at ht
  | cons c rest ih =>
    intro p ok run t ht
    rw [scanAux] at ht
    by_cases hc : c.isLower
    · rw [if_pos hc] at ht
      by_cases h1 : run.isEmpty
      · rw [if_pos h1] at ht
        exact ih _ _ _ t ht
      · rw [if_neg h1] at ht
        exact ih _ _ _ t ht
    · rw [if_neg hc] at ht
      rcases List.mem_append.mp ht with h | h
      · by_cases h2 : !run.isEmpty && ok && !isWordChar c
        · rw [if_pos h2] at h
          have : t = run.reverse := by simpa using h
          subst this
          intro hcon
          rw [List.reverse_eq_nil_iff] at hcon
          subst hcon
          simp at h2
        · rw [if_neg h2] at h
          simp at h
      · exact ih _ _ _ t h

theorem tokenize_nonempty (s : List Char) : ∀ t ∈ tokenize s, t ≠ [] :=
  tokens_nonempty _ _ _ _

theorem mem_insertAscBy {α β : Type} [LinearOrder α] (key : β → α) (x y : β) :
    ∀ (l : List β), y ∈ insertAscBy key x l ↔ y = x ∨ y ∈ l := by
  intro l
  induction l with
  | nil => simp [insertAscBy]
  | cons a as ih =>
    rw [insertAscBy]
    by_cases h : key a < key x
    · rw [if_pos h]
      simp only [List.mem_cons, ih]
      tauto
    · rw [if_neg h]
      simp only [List.mem_cons]

theorem mem_sortAscBy {α β : Type} [LinearOrder α] (key : β → α) (y : β) :
    ∀ (l : List β), y ∈ sortAscBy key l ↔ y ∈ l := by
  intro l
  induction l with
  | nil => simp [sortAscBy]
  | cons x xs ih =>
    rw [sortAscBy, mem_insertAscBy]
    simp only [List.mem_cons, ih]

theorem sorted_insertAscBy {α β : Type} [LinearOrder α] (key : β → α) (x : β) :
    ∀ (l : List β), List.Sorted (fun a b => key a ≤ key b) l →
    List.Sorted (fun a b => key a ≤ key b) (insertAscBy key x l) := by
  intro l
  induction l with
  | nil => intro _; simp [insertAscBy]
  | cons a as ih =>
    intro hs
    rw [List.sorted_cons] at hs
    rw [insertAscBy]
    by_cases h : key a < key x
    · rw [if_pos h]
      rw [List.sorted_cons]
      refine ⟨?_, ih hs.2⟩
      intro b hb
      rcases (mem_insertAscBy key x b as).mp hb with h1 | h1
      · exact h1 ▸ le_of_lt h
      · exact hs.1 b h1
    · rw [if_neg h]
      rw [List.sorted_cons]
      refine ⟨?_, List.sorted_cons.mpr hs⟩
      intro b hb
      rcases List.mem_cons.mp hb with h1 | h1
      · exact h1 ▸ not_lt.mp h
      · exact le_trans (not_lt.mp h) (hs.1 b h1)

theorem sorted_sortAscBy {α β : Type} [LinearOrder α] (key : β → α) :
    ∀ (l : List β), List.Sorted (fun a b => key a ≤ key b) (sortAscBy key l) := by
  intro l
  induction l with
  | nil => simp [sortAscBy]
  | cons x xs ih =>
    rw [sortAscBy]
    exact sorted_insertAscBy key x _ ih

theorem rawHighlights_wf (text : List Char) (words : List (List Char))
    (hw : ∀ w ∈ words, w ≠ []) :
    ∀ sp ∈ rawHighlights text words,
      sp.start < sp.stop ∧ sp.text = sliceL text sp.start sp.stop := by
  intro sp hsp
  rw [rawHighlights] at hsp
  obtain ⟨w, hwmem, hsp2⟩ := List.mem_flatMap.mp hsp
  obtain ⟨se, hse, hmk⟩ := List.mem_map.mp hsp2
  subst hmk
  have := collectOccs_lt (text.map Char.toLower) w (hw w hwmem) 3 0 se hse
  exact ⟨this, rfl⟩

theorem mergeSpansAux_wf (text : List Char) :
    ∀ (rest : List Span) (cur : Span),
    cur.start < cur.stop → cur.text = sliceL text cur.start cur.stop →
    (∀ sp ∈ rest, sp.start < sp.stop ∧ sp.text = sliceL text sp.start sp.stop) →
    List.Sorted (fun a b : Span => a.start ≤ b.start) (cur :: rest) →
    List.Pairwise (fun a b : Span => a.stop < b.start) (mergeSpansAux text cur rest) ∧
    (∀ sp ∈ mergeSpansAux text cur rest,
      sp.start < sp.stop ∧ sp.text = sliceL text sp.start sp.stop) ∧
    (∀ sp ∈ mergeSpansAux text cur rest, cur.start ≤ sp.start) := by
  intro rest
  induction rest with
  | nil =>
    intro cur h1 h2 _ _
    rw [mergeSpansAux]
    refine ⟨List.pairwise_singleton _ _, ?_, ?_⟩
    · intro sp hsp
      have : sp = cur := by simpa using hsp
      subst this
      exact ⟨h1, h2⟩
    · intro sp hsp
      have : sp = cur := by simpa using hsp
      subst this
      exact le_refl _
  | cons h t ih =>
    intro cur hc1 hc2 hprops hsorted
    rw [List.sorted_cons] at hsorted
    have hsorted_ht : List.Sorted (fun a b : Span => a.start ≤ b.start) (h :: t) :=
      hsorted.2
    rw [List.sorted_cons] at hsorted_ht
    rw [mergeSpansAux]
    by_cases hov : h.start ≤ cur.stop
    · rw [if_pos hov]
      have hcur' : cur.start < max cur.stop h.stop :=
        lt_of_lt_of_le hc1 (le_max_left _ _)
      have ihres := ih ⟨cur.start, max cur.stop h.stop,
          sliceL text cur.start (max cur.stop h.stop)⟩ hcur' rfl
        (fun sp hsp => hprops sp (List.mem_cons_of_mem _ hsp))
        (by
          rw [List.sorted_cons]
          refine ⟨?_, hsorted_ht.2⟩
          intro b hb
          exact le_trans (hsorted.1 h (List.mem_cons_self _ _)) (hsorted_ht.1 b hb))
      exact ⟨ihres.1, ihres.2.1, ihres.2.2⟩
    · rw [if_neg hov]
      have hstep : cur.stop < h.start := not_le.mp hov
      have ihres := ih h (hprops h (List.mem_cons_self _ _)).1
        (hprops h (List.mem_cons_self _ _)).2
        (fun sp hsp => hprops sp (List.mem_cons_of_mem _ hsp))
        (List.sorted_cons.mpr hsorted_ht)
      refine ⟨?_, ?_, ?_⟩
      · rw [List.pairwise_cons]
        refine ⟨?_, ihres.1⟩
        intro sp hsp
        exact lt_of_lt_of_le hstep (ihres.2.2 sp hsp)
      · intro sp hsp
        rcases List.mem_cons.mp hsp with h1 | h1
        · subst h1
          exact ⟨hc1, hc2⟩
        · exact ihres.2.1 sp h1
      · intro sp hsp
        rcases List.mem_cons.mp hsp with h1 | h1
        · subst h1
          exact le_refl _
        · exact le_trans (hsorted.1 h (List.mem_cons_self _ _)) (ihres.2.2 sp h1)

theorem mergeSpans_wf (text : List Char) (l : List Span)
    (hprops : ∀ sp ∈ l, sp.start < sp.stop ∧ sp.text = sliceL text sp.start sp.stop)
    (hsorted : List.Sorted (fun a b : Span => a.start ≤ b.start) l) :
    List.Pairwise (fun a b : Span => a.stop < b.start) (mergeSpans text l) ∧
    ∀ sp ∈ mergeSpans text l,
      sp.start < sp.stop ∧ sp.text = sliceL text sp.start sp.stop := by
  cases l with
  | nil =>
    rw [mergeSpans]
    exact ⟨List.Pairwise.nil, by simp⟩
  | cons h t =>
    rw [mergeSpans]
    have hres := mergeSpansAux_wf text t h
      (hprops h (List.mem_cons_self _ _)).1
      (hprops h (List.mem_cons_self _ _)).2
      (fun sp hsp => hprops sp (List.mem_cons_of_mem _ hsp))
      hsorted
    exact ⟨hres.1, hres.2.1⟩

/-- C5: the highlights `search_hadith_advanced` attaches to a result are
computed over that result's own English body and satisfy the span
contract: at most 10 spans, pairwise disjoint (each span ends strictly
before the next begins), every span with `start < stop` and `text`
exactly the slice `body_en[start:stop]`. -/
theorem highlight_spans_wf {α : Type} (query : String) (r : Rec α) :
    (highlightRec query r).highlights =
      some (computeHighlights r.body_en (tokenize query.data)) ∧
    (highlightRec query r).body_en = r.body_en ∧
    (computeHighlights r.body_en (tokenize query.data)).length ≤ 10 ∧
    List.Pairwise (fun a b : Span => a.stop < b.start)
      (computeHighlights r.body_en (tokenize query.data)) ∧
    ∀ sp ∈ computeHighlights r.body_en (tokenize query.data),
      sp.start < sp.stop ∧ sp.text = sliceL r.body_en sp.start sp.stop := by
  have hmerged := mergeSpans_wf r.body_en
    (sortAscBy Span.start (rawHighlights r.body_en ((tokenize query.data).take 5)))
    (by
      intro sp hsp
      rw [mem_sortAscBy] at hsp
      exact rawHighlights_wf r.body_en ((tokenize query.data).take 5)
        (fun w hw => tokenize_nonempty query.data w
          ((List.take_sublist 5 (tokenize query.data)).subset hw))
        sp hsp)
    (sorted_sortAscBy Span.start _)
  refine ⟨rfl, rfl, ?_, ?_, ?_⟩
  · rw [computeHighlights]
    rw [List.length_take]
    exact min_le_left _ _
  · rw [computeHighlights]
    exact hmerged.1.sublist (List.take_sublist _ _)
  · intro sp hsp
    rw [computeHighlights] at hsp
    exact hmerged.2 sp ((List.take_sublist _ _).subset hsp)

/-- C6 amended: the highlighter's searched words are exactly the FIRST 5
tokens of the tokenized query — duplicates included, so duplicate leading
tokens DO consume highlight-word slots — and at most 3 occurrences per
word are collected before boundary extension. -/
theorem highlight_take5_amended (text : List Char) (q1 q2 : List (List Char))
    (h : q1.take 5 = q2.take 5) :
    computeHighlights text q1 = computeHighlights text q2 ∧
    (∀ tl w : List Char, ∀ start : Nat,
      (collectOccs tl w 3 start).length ≤ 3) := by
  constructor
  · rw [computeHighlights, computeHighlights, h]
  · exact fun tl w start => collectOccs_length_le tl w 3 start

/-- C6 witness: two queries that agree on their first 5 tokens (with
duplicates) highlight identically. -/
theorem highlight_take5_amended_witness :
    computeHighlights "run".data (tokenize "a b c d e f".data) =
      computeHighlights "run".data (tokenize "a b c d e zzz".data) ∧
    (∀ tl w : List Char, ∀ start : Nat,
      (collectOccs tl w 3 start).length ≤ 3) :=
  highlight_take5_amended "run".data (tokenize "a b c d e f".data)
    (tokenize "a b c d e zzz".data) (by decide)

/-- C6 counterexample: with query tokens `[a,a,a,a,a,b]` and body `"b"`,
the source highlights nothing (the first 5 POSITIONS are all `"a"`),
while the claim's first-5-DISTINCT reading would highlight `"b"`. -/
theorem highlight_first5_duplicates_cex :
    computeHighlights ['b'] (tokenize "a a a a a b".data) = [] ∧
    computeHighlightsSpec ['b'] (tokenize "a a a a a b".data) = [⟨0, 1, ['b']⟩] ∧
    "b".data ∈ highlight_words_spec (tokenize "a a a a a b".data) := by decide

theorem find?_eq_some_of_unique {γ : Type} (p : γ → Bool) :
    ∀ (l : List γ) (x : γ), x ∈ l → p x = true →
    (∀ y ∈ l, p y = true → y = x) → l.find? p = some x := by
  intro l
  induction l with
  | nil => intro x hx; simp at hx
  | cons a t ih =>
    intro x hx hpx huniq
    rw [List.find?_cons]
    by_cases hpa : p a = true
    · rw [hpa]
      exact congrArg some (huniq a (List.mem_cons_self _ _) hpa)
    · rw [Bool.not_eq_true] at hpa
      rw [hpa]
      have hxt : x ∈ t := by
        rcases List.mem_cons.mp hx with h | h
        · subst h
          rw [hpx] at hpa
          exact absurd hpa (by simp)
        · exact h
      exact ih x hxt hpx (fun y hy hpy => huniq y (List.mem_cons_of_mem _ hy) hpy)

/-- C9 counterexample: the two reference VALUES `"7"` (string) and `7`
(int) are distinct — so bookReference values are unique within the book —
but they stringify alike, and looking the second hadith up by its own
reference returns the FIRST hadith's fields (`body_en = "first"`, not
`"second"`). -/
theorem get_by_reference_stringified_collision_cex :
    hadithRefS.bookReference ≠ hadithRefN.bookReference ∧
    (get_hadith_by_reference corpusRef manifest1 "c1" 1 (.n 7)).map
      (fun r => r.body_en) = some "first".data ∧
    hadithRefN.englishText = "second".data := by decide

/-- C9 amended: with STRINGIFIED bookReference values unique within the
book, `get_hadith_by_reference` walks the book's hadith list in order,
returns the record assembled from the first (hence the) hadith whose
stringified reference equals the stringified argument — carrying the
hadith's stored fields, the book name and the collection display name
and no score — and returns `none` for an unknown collection, an unknown
book, or no match. -/
theorem get_by_reference_roundtrip_amended
    (si : SearchIndex) (manifest : Manifest)
    (cid : String) (cd : CollectionData) (bid : Nat) (bd : BookData) (h : Hadith)
    (hsi : lookupA si cid = some cd)
    (hbd : lookupA cd.books bid = some bd)
    (hmem : h ∈ bd.hadiths)
    (huniq : ∀ h1 ∈ bd.hadiths, ∀ h2 ∈ bd.hadiths,
      strOfRef h1.bookReference = strOfRef h2.bookReference → h1 = h2)
    (ref : JVal)
    (href : strOfRef h.bookReference = ref.toStr) :
    get_hadith_by_reference si manifest cid bid ref =
      some { collection_id := cid,
             collection := (lookupA manifest cid).getD cid,
             hadith_no := h.hadithNumber,
             book_no := bid,
             book_en := bd.bookName,
             narrator_en := h.englishNarrated,
             body_en := h.englishText,
             body_ar := h.arabicText,
             book_ref_no := h.bookReference } ∧
    (∀ cid2, lookupA si cid2 = none →
      get_hadith_by_reference si manifest cid2 bid ref = none) ∧
    (∀ bid2, lookupA cd.books bid2 = none →
      get_hadith_by_reference si manifest cid bid2 ref = none) ∧
    (∀ bd2 : BookData,
      (∀ hh ∈ bd2.hadiths, strOfRef hh.bookReference ≠ ref.toStr) →
      bd2.hadiths.find? (fun hh => strOfRef hh.bookReference == ref.toStr) = none) := by
  refine ⟨?_, ?_, ?_, ?_⟩
  · rw [get_hadith_by_reference, hsi]
    dsimp only [Option.getD_some]
    rw [hbd]
    dsimp only [Option.getD_some]
    have hfind : bd.hadiths.find?
        (fun hh => strOfRef hh.bookReference == ref.toStr) = some h := by
      apply find?_eq_some_of_unique _ _ h hmem
      · simpa using href
      · intro y hy hpy
        exact huniq y hy h hmem (by
          have : strOfRef y.bookReference = ref.toStr := by simpa using hpy
          rw [this, href])
    rw [hfind]
  · intro cid2 hnone
    rw [get_hadith_by_reference, hnone]
    rfl
  · intro bid2 hnone
    rw [get_hadith_by_reference, hsi]
    dsimp only [Option.getD_some]
    rw [hnone]
    rfl
  · intro bd2 hno
    rw [List.find?_eq_none]
    intro hh hhm
    simpa using hno hh hhm

/-- C9 witness: the round trip on the one-hadith fixture corpus, looked
up by its own reference `7`; and the absent cases on it. -/
theorem get_by_reference_roundtrip_amended_witness :
    get_hadith_by_reference corpus1 manifest1 "c1" 1 (.n 7) =
      some { collection_id := "c1",
             collection := (lookupA manifest1 "c1").getD "c1",
             hadith_no := hadith1.hadithNumber,
             book_no := 1,
             book_en := (⟨"Book One", [hadith1]⟩ : BookData).bookName,
             narrator_en := hadith1.englishNarrated,
             body_en := hadith1.englishText,
             body_ar := hadith1.arabicText,
             book_ref_no := hadith1.bookReference } ∧
    (∀ cid2, lookupA corpus1 cid2 = none →
      get_hadith_by_reference corpus1 manifest1 cid2 1 (.n 7) = none) ∧
    (∀ bid2, lookupA (⟨[(1, ⟨"Book One", [hadith1]⟩)]⟩ : CollectionData).books bid2 = none →
      get_hadith_by_reference corpus1 manifest1 "c1" bid2 (.n 7) = none) ∧
    (∀ bd2 : BookData,
      (∀ hh ∈ bd2.hadiths, strOfRef hh.bookReference ≠ (JVal.n 7).toStr) →
      bd2.hadiths.find?
        (fun hh => strOfRef hh.bookReference == (JVal.n 7).toStr) = none) :=
  get_by_reference_roundtrip_amended corpus1 manifest1 "c1"
    ⟨[(1, ⟨"Book One", [hadith1]⟩)]⟩ 1 ⟨"Book One", [hadith1]⟩ hadith1
    (by decide) (by decide) (by decide) (by decide) (.n 7) (by decide)

theorem wf_empty_caches {α : Type} [Inhabited α] (core : Core α)
    (store : List (Rec α)) : WFState (⟨core, store, [], []⟩ : SState α) := by
  refine ⟨?_, ?_, ?_⟩
  · intro k ids h
    simp [lookupA] at h
  · intro q l ids h
    simp [lookupA] at h
  · intro l ids h
    simp [lookupA] at h

theorem foldSet_highlights {α : Type} [Inhabited α] (query : String) :
    ∀ (ids : List Nat) (store : List (Rec α)) (i : Nat), i < store.length →
    (i ∈ ids ∨ ((store.getD i default).highlights).isSome = true) →
    (((ids.foldl (fun s j => s.set j (highlightRec query (s.getD j default)))
        store).getD i default).highlights).isSome = true := by
  intro ids
  induction ids with
  | nil =>
    intro store i _ hdisj
    rcases hdisj with h | h
    · simp at h
    · exact h
  | cons j rest ih =>
    intro store i hlen hdisj
    rw [List.foldl_cons]
    have hlen' : i < (store.set j (highlightRec query (store.getD j default))).length := by
      rw [List.length_set]
      exact hlen
    apply ih _ i hlen'
    rcases hdisj with h | h
    · rcases List.mem_cons.mp h with h1 | h1
      · right
        subst h1
        have hset : (store.set i (highlightRec query (store.getD i default))).getD i
            default = highlightRec query (store.getD i default) := by
          simp [List.getD_eq_getElem?_getD, List.getElem?_set_self, hlen]
        rw [hset, highlightRec]
        rfl
      · left
        exact h1
    · right
      by_cases hij : j = i
      · subst hij
        have hset : (store.set j (highlightRec query (store.getD j default))).getD j
            default = highlightRec query (store.getD j default) := by
          simp [List.getD_eq_getElem?_getD, List.getElem?_set_self, hlen]
        rw [hset, highlightRec]
        rfl
      · have hset : (store.set j (highlightRec query (store.getD j default))).getD i
            default = store.getD i default := by
          simp [List.getD_eq_getElem?_getD, List.getElem?_set_ne hij]
        rw [hset]
        exact h

theorem search_hadith_cache_hit {α : Type} [LinearOrder α] [OfNat α 2] [Add α]
    [Inhabited α] (st : SState α) (q : String) (l : Nat) (ids : List Nat)
    (h : lookupA st.basicCache (q, l) = some ids) :
    search_hadith st q l = (st, ids) := by
  rw [search_hadith, h]

theorem search_hadith_cache_miss {α : Type} [LinearOrder α] [OfNat α 2] [Add α]
    [Inhabited α] (st : SState α) (q : String) (l : Nat)
    (h : lookupA st.basicCache (q, l) = none) :
    search_hadith st q l =
      ({ st with store := st.store ++ search_hadith_core st.core q l,
                 basicCache := ((q, l),
                   List.range' st.store.length
                     (search_hadith_core st.core q l).length) :: st.basicCache },
       List.range' st.store.length (search_hadith_core st.core q l).length) := by
  rw [search_hadith, h]

/-- C4: after `search_hadith_advanced(query, limit)`, a subsequent
`search_hadith(query, limit)` returns records that ALL carry a
`highlights` key — the advanced variant mutates, in place, the same
record dicts stored in the basic search's cache, so basic results are
not left unchanged by the advanced variant. -/
theorem advanced_then_basic_highlighted {α : Type} [LinearOrder α] [OfNat α 2]
    [Add α] [Inhabited α] (st : SState α) (query : String) (limit : Nat)
    (hwf : WFState st) :
    ((readRecs
      (search_hadith (search_hadith_advanced st query limit).1 query limit).1.store
      (search_hadith (search_hadith_advanced st query limit).1 query limit).2).all
      (fun r => r.highlights.isSome)) = true := by
  obtain ⟨hwf1, hwf2, hwf3⟩ := hwf
  cases hadv : lookupA st.advCache (query, limit) with
  | some ids =>
    rw [search_hadith_advanced, hadv]
    dsimp only
    rcases hwf2 query limit ids hadv with ⟨hq, hids⟩ | ⟨hbc, hhl⟩
    · subst hq
      subst hids
      rw [search_hadith]
      cases hb : lookupA st.basicCache ("", limit) with
      | some ids2 =>
        dsimp only
        have h0 : ids2 = [] := hwf3 limit ids2 hb
        subst h0
        rfl
      | none =>
        dsimp only
        have hcore : search_hadith_core st.core "" limit = [] := by
          rw [search_hadith_core, if_pos rfl]
        rw [hcore]
        rfl
    · rw [search_hadith, hbc]
      dsimp only
      rw [List.all_eq_true]
      intro r hr
      rw [readRecs] at hr
      obtain ⟨i, hi, rfl⟩ := List.mem_map.mp hr
      exact hhl i hi
  | none =>
    rw [search_hadith_advanced, hadv]
    dsimp only
    by_cases hq : query = ""
    · rw [if_pos hq]
      dsimp only
      subst hq
      rw [search_hadith]
      dsimp only
      cases hb : lookupA st.basicCache ("", limit) with
      | some ids2 =>
        dsimp only
        have h0 : ids2 = [] := hwf3 limit ids2 hb
        subst h0
        rfl
      | none =>
        dsimp only
        have hcore : search_hadith_core st.core "" limit = [] := by
          rw [search_hadith_core, if_pos rfl]
        rw [hcore]
        rfl
    · rw [if_neg hq]
      dsimp only
      cases hbas : lookupA st.basicCache (query, limit) with
      | some ids =>
        rw [search_hadith_cache_hit st query limit ids hbas]
        dsimp only
        rw [search_hadith_cache_hit
          (⟨st.core,
            ids.foldl (fun s i => s.set i (highlightRec query (s.getD i default)))
              st.store,
            st.basicCache,
            ((query, limit), ids) :: st.advCache⟩ : SState α)
          query limit ids hbas]
        dsimp only
        rw [List.all_eq_true]
        intro r hr
        rw [readRecs] at hr
        obtain ⟨i, hi, rfl⟩ := List.mem_map.mp hr
        exact foldSet_highlights query ids st.store i
          (hwf1 (query, limit) ids hbas i hi) (Or.inl hi)
      | none =>
        rw [search_hadith_cache_miss st query limit hbas]
        dsimp only
        rw [search_hadith_cache_hit
          (⟨st.core,
            (List.range' st.store.length
              (search_hadith_core st.core query limit).length).foldl
              (fun s i => s.set i (highlightRec query (s.getD i default)))
              (st.store ++ search_hadith_core st.core query limit),
            ((query, limit),
              List.range' st.store.length
                (search_hadith_core st.core query limit).length) :: st.basicCache,
            ((query, limit),
              List.range' st.store.length
                (search_hadith_core st.core query limit).length) ::
              st.advCache⟩ : SState α)
          query limit
          (List.range' st.store.length
            (search_hadith_core st.core query limit).length)
          (by rw [lookupA, if_pos rfl])]
        dsimp only
        rw [List.all_eq_true]
        intro r hr
        rw [readRecs] at hr
        obtain ⟨i, hi, rfl⟩ := List.mem_map.mp hr
        have hbound : i < (st.store ++ search_hadith_core st.core query limit).length := by
          rw [List.length_append]
          have := List.mem_range'_1.mp hi
          omega
        exact foldSet_highlights query _ _ i hbound (Or.inl hi)

/-- C4 witness: on the empty-cache fixture state, after an advanced
search for `"prophet"` the subsequent basic search returns records all
carrying highlights. -/
theorem advanced_then_basic_highlighted_witness :
    ((readRecs
      (search_hadith (search_hadith_advanced stNat "prophet" 1).1 "prophet" 1).1.store
      (search_hadith (search_hadith_advanced stNat "prophet" 1).1 "prophet" 1).2).all
      (fun r => r.highlights.isSome)) = true :=
  advanced_then_basic_highlighted stNat "prophet" 1 (wf_empty_caches coreNat [])
